import Mathlib

/-!
Verification of the DFA union construction pipeline.

The program loads two deterministic finite automata from structured
documents, builds their cross-product (union) automaton, validates the
result structurally, and serializes it back to a document.  Every
definition below is a shallow embedding of the corresponding function of
the source file `ProjectCode.py`:

* `readDFA`                    — the loader (lines 6 to 54);
* `generateUnionStates`        — the product state set (lines 57 to 59);
* `generateUnionTransitions`   — the product transition table (lines 62 to 83);
* `generateUnionAcceptStates`  — the derived accepting set (lines 86 to 92);
* `generateUnionStartState`    — the derived start state (lines 95 to 96);
* `validateUnionDFA`           — the structural validator (lines 98 to 146);
* `outputUnionDFA`             — the serializer (lines 148 to 199);
* `runUnionPipeline`           — the main control flow (lines 203 to 248).

Python sets are modelled as lists (membership and cardinality are what
the claims quantify over; iteration order of a Python set is
unspecified), dictionaries as association lists with first-match lookup,
and exceptions as `Except`/`Option` results: a `none`/`error` value marks
the exact places where the Python code raises.
-/

/-- A product state: a pair of state identifiers of the two input automata. -/
abbrev St := String × String

/-- A transition row of the product automaton: symbol to destination pair. -/
abbrev Row := List (String × St)

/-- The product transition table: product state to its transition row. -/
abbrev Table := List (St × Row)

/-- The in-memory automaton model, as returned by the loader: the dictionary
with keys states, transitions, start and accepts built at lines 49 to 54. -/
structure Dfa where
  states : List String
  transitions : List (String × List (String × String))
  start : String
  accepts : List String
deriving DecidableEq, Repr

/-- Lookup of `dfa["transitions"][s][sym]`: `none` when either dictionary
access would raise `KeyError`. -/
def trans2 (d : Dfa) (s : String) (sym : String) : Option String :=
  (d.transitions.lookup s).bind (fun row => row.lookup sym)

/-- `generateUnionStates` (lines 57 to 59): the full Cartesian product of the
two state sets, with no filtering. -/
def generateUnionStates (dfa1 dfa2 : Dfa) : List St :=
  dfa1.states ×ˢ dfa2.states

/-- The symbol universe of lines 65 to 67: the union of all transition symbols
observed across the transition table of the FIRST automaton only. -/
def symbolsOf (d : Dfa) : List String :=
  (d.transitions.flatMap (fun kv => kv.2.map Prod.fst)).dedup

/-- The construction-time error of line 77: a required symbol is absent in one
of the two transition tables; the error names the offending symbol. -/
inductive UnionError where
  | missingTransition (symbol : String)
deriving DecidableEq, Repr

/-- The inner loop of lines 72 to 78: build the transition row of one product
state over the given symbol list, failing on the first symbol whose lookup
raises `KeyError` in either automaton. -/
def buildRow (dfa1 dfa2 : Dfa) (p : St) : List String → Except UnionError Row
  | [] => .ok []
  | sym :: rest =>
    match trans2 dfa1 p.1 sym, trans2 dfa2 p.2 sym with
    | some n1, some n2 =>
      match buildRow dfa1 dfa2 p rest with
      | .error e => .error e
      | .ok r => .ok ((sym, (n1, n2)) :: r)
    | _, _ => .error (.missingTransition sym)

/-- The outer loop of lines 70 to 78: one row per product state, in order;
raising aborts the whole construction and discards the partial table. -/
def buildTable (dfa1 dfa2 : Dfa) (syms : List String) :
    List St → Except UnionError Table
  | [] => .ok []
  | p :: rest =>
    match buildRow dfa1 dfa2 p syms with
    | .error e => .error e
    | .ok row =>
      match buildTable dfa1 dfa2 syms rest with
      | .error e => .error e
      | .ok tbl => .ok ((p, row) :: tbl)

/-- The value returned at lines 80 to 83: the product states together with the
completed product transition table. -/
structure UnionParts where
  states : List St
  transitions : Table
deriving DecidableEq, Repr

/-- `generateUnionTransitions` (lines 62 to 83). -/
def generateUnionTransitions (dfa1 dfa2 : Dfa) (productStates : List St) :
    Except UnionError UnionParts :=
  match buildTable dfa1 dfa2 (symbolsOf dfa1) productStates with
  | .error e => .error e
  | .ok t => .ok ⟨productStates, t⟩

/-- `generateUnionAcceptStates` (lines 86 to 92): the product states whose
first component is accepting in the first automaton or whose second component
is accepting in the second. -/
def generateUnionAcceptStates (dfa1 dfa2 : Dfa) (productStates : List St) :
    List St :=
  productStates.filter
    (fun p => decide (p.1 ∈ dfa1.accepts) || decide (p.2 ∈ dfa2.accepts))

/-- `generateUnionStartState` (lines 95 to 96). -/
def generateUnionStartState (dfa1 dfa2 : Dfa) : St :=
  (dfa1.start, dfa2.start)

/-- Automaton A of the worked example of the spec. -/
def exA : Dfa :=
  { states := ["q0", "q1"]
  , transitions := [("q0", [("a", "q1")]), ("q1", [("a", "q1")])]
  , start := "q0"
  , accepts := ["q1"] }

/-- Automaton B of the worked example of the spec. -/
def exB : Dfa :=
  { states := ["p0"]
  , transitions := [("p0", [("a", "p0")])]
  , start := "p0"
  , accepts := [] }

/-- First automaton for the four-combination acceptance witness. -/
def wA : Dfa :=
  { states := ["x", "y"]
  , transitions := [("x", [("a", "x")]), ("y", [("a", "y")])]
  , start := "x"
  , accepts := ["x"] }

/-- Second automaton for the four-combination acceptance witness. -/
def wB : Dfa :=
  { states := ["u", "v"]
  , transitions := [("u", [("a", "u")]), ("v", [("a", "v")])]
  , start := "u"
  , accepts := ["u"] }

/-- The product state list for the four-combination acceptance witness. -/
def wPs : List St := generateUnionStates wA wB

/-- The successor list of a node in the product transition table: the values
of its transition row, in row order; empty when the node has no row, as with
the defaulted dictionary access of line 135. -/
def succsOf (pt : Table) (x : St) : List St :=
  match pt.lookup x with
  | none => []
  | some row => row.map Prod.snd

/-- All transition destinations appearing anywhere in the table. -/
def targetsOf (pt : Table) : List St :=
  pt.flatMap (fun kv => kv.2.map Prod.snd)

/-- Pop from the END of the worklist, which is what the call at line 131 does
on a Python list. -/
def popLast (l : List St) : Option (St × List St) :=
  match l.getLast? with
  | none => none
  | some x => some (x, l.dropLast)

/-- Pop from the FRONT of the worklist: the queue discipline, used only to
state that traversal order does not change the reachable set. -/
def popFront (l : List St) : Option (St × List St) :=
  match l with
  | [] => none
  | x :: rest => some (x, rest)

/-- The worklist traversal of lines 127 to 137, parameterized by the policy
that removes the next node from the worklist, with explicit fuel; the fuel
only makes the recursion structural, and the totality lemma below shows the
loop always finishes within the fuel budget used by the wrappers, exactly as
the source loop always terminates. -/
def reachLoopG (pick : List St → Option (St × List St)) (pt : Table) :
    Nat → List St → List St → Option (List St)
  | 0, _, _ => none
  | fuel + 1, stack, reachable =>
    match pick stack with
    | none => some reachable
    | some (cur, rest) =>
      if cur ∈ reachable then reachLoopG pick pt fuel rest reachable
      else
        reachLoopG pick pt fuel
          (rest ++ (succsOf pt cur).filter (fun n => decide (n ∉ reachable ++ [cur])))
          (reachable ++ [cur])

/-- Fuel that always suffices for the traversal (proved below). -/
def reachFuel (pt : Table) (start : St) : Nat :=
  (start :: targetsOf pt).length * (1 + (targetsOf pt).length) + 2

/-- The reachable set computed by the stack traversal of lines 126 to 137. -/
def reachableFrom (pt : Table) (start : St) : List St :=
  (reachLoopG popLast pt (reachFuel pt start) [start] []).getD []

/-- The reachable set computed by the queue variant of the same traversal. -/
def reachableFromQueue (pt : Table) (start : St) : List St :=
  (reachLoopG popFront pt (reachFuel pt start) [start] []).getD []

/-- Reachability by zero or more transitions from the start state, following
the transition table the way the traversal follows it. -/
inductive Reaches (pt : Table) (start : St) : St → Prop
  | refl : Reaches pt start start
  | step {x y : St} : Reaches pt start x → y ∈ succsOf pt x → Reaches pt start y

/-- The two properties of a worklist policy that the traversal lemmas use:
it removes exactly one element of a non-empty worklist and keeps the rest. -/
structure PickSpec (pick : List St → Option (St × List St)) : Prop where
  eq_none : ∀ l, pick l = none ↔ l = []
  mem_self : ∀ l x r, pick l = some (x, r) → x ∈ l
  mem_iff : ∀ l x r, pick l = some (x, r) → ∀ y, y ∈ l ↔ (y = x ∨ y ∈ r)
  len : ∀ l x r, pick l = some (x, r) → r.length + 1 = l.length

/-- The validator findings, one constructor per message appended to the error
list at lines 105, 110, 115, 119, 124 and 140. -/
inductive Finding where
  | startNotInStates (start : St)
  | noTransitions (state : St)
  | missingSymbol (state : St) (symbol : String)
  | invalidTarget (state : St) (symbol : String) (target : St)
  | acceptNotInStates (acc : St)
  | unreachableStates (states : List St)
deriving DecidableEq, Repr

/-- The structured validation result of lines 143 to 146. -/
inductive ValidationResult where
  | success
  | failure (errors : List Finding)
deriving DecidableEq, Repr

/-- The final report of lines 143 to 146. -/
def mkResult (errs : List Finding) : ValidationResult :=
  if errs = [] then .success else .failure errs

/-- The error list carried by a validation result. -/
def resultErrors : ValidationResult → List Finding
  | .success => []
  | .failure errs => errs

/-- The start membership check of lines 103 to 105. -/
def startErrors (ps : List St) (start : St) : List Finding :=
  if start ∈ ps then [] else [.startNotInStates start]

/-- Line 112: the reference symbol set is the key set of the FIRST transition
row of the first automaton; `none` models the `StopIteration` raised by
`next` on an empty transition table. -/
def refSymbols (dfa1 : Dfa) : Option (List String) :=
  match dfa1.transitions.head? with
  | none => none
  | some kv => some (kv.2.map Prod.fst)

/-- Lines 108 to 119 for one product state: its findings, or `none` when the
reference symbol lookup raises. -/
def checkState (dfa1 : Dfa) (ps : List St) (pt : Table) (st : St) :
    Option (List Finding) :=
  match pt.lookup st with
  | none => some [.noTransitions st]
  | some row =>
    match refSymbols dfa1 with
    | none => none
    | some syms =>
      some (syms.flatMap (fun sym =>
        match row.lookup sym with
        | none => [.missingSymbol st sym]
        | some tgt => if tgt ∈ ps then [] else [.invalidTarget st sym tgt]))

/-- The per-state loop of lines 107 to 119; a raise inside the loop discards
everything. -/
def stateErrorsLoop (dfa1 : Dfa) (psAll : List St) (pt : Table) :
    List St → Option (List Finding)
  | [] => some []
  | st :: rest =>
    match checkState dfa1 psAll pt st with
    | none => none
    | some e =>
      match stateErrorsLoop dfa1 psAll pt rest with
      | none => none
      | some es => some (e ++ es)

/-- The accept membership check of lines 122 to 124. -/
def acceptErrors (ps : List St) (accs : List St) : List Finding :=
  (accs.filter (fun a => decide (a ∉ ps))).map (fun a => .acceptNotInStates a)

/-- The unreachable state report of lines 138 to 140. -/
def unreachableFinding (ps : List St) (reach : List St) : List Finding :=
  match ps.filter (fun p => decide (p ∉ reach)) with
  | [] => []
  | l => [.unreachableStates l]

/-- `validateUnionDFA` (lines 98 to 146); `none` marks the `StopIteration`
escape described at `refSymbols`, which loses every finding collected so
far. -/
def validateUnionDFA (dfa1 dfa2 : Dfa) (productStates : List St)
    (productTransitions : Table) (productStartState : St)
    (productAcceptStates : List St) : Option ValidationResult :=
  match stateErrorsLoop dfa1 productStates productTransitions productStates with
  | none => none
  | some e2 =>
    some (mkResult (startErrors productStates productStartState ++ e2 ++
      acceptErrors productStates productAcceptStates ++
      unreachableFinding productStates
        (reachableFrom productTransitions productStartState)))

/-- First automaton for the reachability witness: two disconnected self
looping states, so half of the product is unreachable. -/
def cA : Dfa :=
  { states := ["q0", "q1"]
  , transitions := [("q0", [("a", "q0")]), ("q1", [("a", "q1")])]
  , start := "q0"
  , accepts := ["q1"] }

/-- Second automaton for the reachability witness. -/
def cB : Dfa :=
  { states := ["p0"]
  , transitions := [("p0", [("a", "p0")])]
  , start := "p0"
  , accepts := [] }

/-- Product states for the reachability witness. -/
def cPs : List St := generateUnionStates cA cB

/-- Product transitions for the reachability witness, as generated by the
union constructor on `cA` and `cB`. -/
def cPt : Table :=
  [(("q0", "p0"), [("a", ("q0", "p0"))]), (("q1", "p0"), [("a", ("q1", "p0"))])]

/-- A raw input or output document after JSON parsing: the three required
fields of the format of section 6; each state or accept entry is the ordered
key/value list of one JSON object. -/
structure RawDoc where
  states : List (List (String × String))
  startState : String
  acceptStates : List (List (String × String))
deriving DecidableEq, Repr

/-- The loader errors raised at lines 19, 21, 30, 35, 41 and 46. -/
inductive LoadError where
  | missingOrEmptyKey (key : String)
  | invalidStartState
  | stateEntryMissingKey
  | stateWithoutTransitions (state : String)
  | acceptEntryMissingKey
deriving DecidableEq, Repr

/-- The strip call of line 29, on the character list of a string: drop
whitespace from both ends. -/
def stripChars (l : List Char) : List Char :=
  ((l.dropWhile Char.isWhitespace).reverse.dropWhile Char.isWhitespace).reverse

/-- The strip call of line 29 as a string to string function. -/
def pyStrip (s : String) : String := ⟨stripChars s.data⟩

/-- Adding an element to a set modelled as a duplicate-free list. -/
def addState (sts : List String) (s : String) : List String :=
  if s ∈ sts then sts else sts ++ [s]

/-- Dictionary assignment: replace the value of an existing key, else append
the pair, preserving insertion order as a Python dictionary does. -/
def dictInsert {β : Type} (m : List (String × β)) (k : String) (v : β) :
    List (String × β) :=
  match m with
  | [] => [(k, v)]
  | (k', v') :: rest =>
    if k' = k then (k, v) :: rest else (k', v') :: dictInsert rest k v

/-- Lines 33 to 41: extract the state set and the transition dictionary from
the state entries, failing on an entry without a state key or without any
transition. -/
def readStates : List (List (String × String)) → List String →
    List (String × List (String × String)) →
    Except LoadError (List String × List (String × List (String × String)))
  | [], sts, trs => .ok (sts, trs)
  | entry :: rest, sts, trs =>
    match entry.lookup ("state") with
    | none => .error .stateEntryMissingKey
    | some stateName =>
      match entry.filter (fun kv => decide (kv.1 ≠ "state")) with
      | [] => .error (.stateWithoutTransitions stateName)
      | row => readStates rest (addState sts stateName)
          (dictInsert trs stateName row)

/-- Lines 44 to 47: extract the accepting state set. -/
def readAccepts : List (List (String × String)) → List String →
    Except LoadError (List String)
  | [], accs => .ok accs
  | entry :: rest, accs =>
    match entry.lookup ("state") with
    | none => .error .acceptEntryMissingKey
    | some n => readAccepts rest (addState accs n)

/-- `readDFA` (lines 6 to 54) on an already parsed document: the key checks
of lines 16 to 21, the start state check of lines 28 to 30 (note: membership
of the start state in the state set is never checked), then the two
extraction loops. -/
def readDFA (doc : RawDoc) : Except LoadError Dfa :=
  if doc.states = [] then .error (.missingOrEmptyKey ("states"))
  else if doc.startState = "" then .error (.missingOrEmptyKey ("start-state"))
  else if doc.acceptStates = [] then .error (.missingOrEmptyKey ("accept-states"))
  else if pyStrip doc.startState = "" then .error .invalidStartState
  else
    match readStates doc.states [] [] with
    | .error e => .error e
    | .ok (sts, trs) =>
      match readAccepts doc.acceptStates [] with
      | .error e => .error e
      | .ok accs => .ok ⟨sts, trs, doc.startState, accs⟩

/-- Code point order on character lists, as Python compares strings. -/
def charsLt : List Char → List Char → Bool
  | [], [] => false
  | [], _ :: _ => true
  | _ :: _, [] => false
  | a :: as, b :: bs =>
    if a.toNat < b.toNat then true
    else if b.toNat < a.toNat then false
    else charsLt as bs

/-- Strict code point order on strings. -/
def strLtb (a b : String) : Bool := charsLt a.data b.data

/-- Lexicographic less-or-equal on product pairs: the tuple order used by the
sorted calls of lines 154, 163 and 178. -/
def pairLe (x y : St) : Bool :=
  strLtb x.1 y.1 || (x.1 == y.1 && !(strLtb y.2 x.2))

/-- Insertion into a sorted list, for the sorted calls of the serializer. -/
def insertSorted (x : St) : List St → List St
  | [] => [x]
  | y :: rest => if pairLe x y then x :: y :: rest else y :: insertSorted x rest

/-- Sorting by `pairLe`: the model of the sorted builtin on pair lists. -/
def sortPairs : List St → List St
  | [] => []
  | x :: rest => insertSorted x (sortPairs rest)

/-- Line 173 to 174: the comma joined output name of a product pair. -/
def tupToName (t : St) : String := ⟨t.1.data ++ [','] ++ t.2.data⟩

/-- Lines 179 to 181: one output state entry, a dictionary built from the
state key followed by the renamed transition row. -/
def renderEntry (p : St) (row : Row) : List (String × String) :=
  row.foldl (fun e kv => dictInsert e kv.1 (tupToName kv.2))
    [("state", tupToName p)]

/-- Lines 177 to 182: the output state entries in sorted state order; `none`
models the uncaught `KeyError` of line 180 when a state has no transition
row. -/
def buildEntries : List St → Table → Option (List (List (String × String)))
  | [], _ => some []
  | p :: rest, transitions =>
    match transitions.lookup p with
    | none => none
    | some row =>
      match buildEntries rest transitions with
      | none => none
      | some es => some (renderEntry p row :: es)

/-- `outputUnionDFA` (lines 148 to 199), reduced to the document it writes
to the output file; printing is not modelled. -/
def outputUnionDFA (states : List St) (transitions : Table) (startState : St)
    (acceptStates : List St) : Option RawDoc :=
  match buildEntries (sortPairs states) transitions with
  | none => none
  | some entries =>
    some ⟨entries, tupToName startState,
      (sortPairs acceptStates).map (fun acc => [("state", tupToName acc)])⟩

/-- Outcome of the main flow (lines 217 to 248) after both loads succeed. -/
inductive PipelineOutcome where
  | crashed
  | validationFailed (errors : List Finding)
  | wrote (doc : RawDoc)
deriving DecidableEq, Repr

/-- The main control flow of lines 217 to 248 from two loaded automata:
construction, validation, then either the report plus the written file on
success or the printed defect list and no file on failure; `crashed` marks an
exception escaping (a construction error, the validator raise, or a
serializer KeyError), which also writes nothing. -/
def runUnionPipeline (dfa1 dfa2 : Dfa) : PipelineOutcome :=
  match generateUnionTransitions dfa1 dfa2 (generateUnionStates dfa1 dfa2) with
  | .error _ => .crashed
  | .ok parts =>
    match validateUnionDFA dfa1 dfa2 (generateUnionStates dfa1 dfa2)
        parts.transitions (generateUnionStartState dfa1 dfa2)
        (generateUnionAcceptStates dfa1 dfa2 (generateUnionStates dfa1 dfa2)) with
    | none => .crashed
    | some .success =>
      match outputUnionDFA (generateUnionStates dfa1 dfa2) parts.transitions
          (generateUnionStartState dfa1 dfa2)
          (generateUnionAcceptStates dfa1 dfa2 (generateUnionStates dfa1 dfa2)) with
      | none => .crashed
      | some doc => .wrote doc
    | some (.failure errs) => .validationFailed errs

/-- A concrete input document whose start state zz is not one of its declared
states; the loader accepts it. -/
def doc10A : RawDoc :=
  { states := [[("state", "s0"), ("a", "s0")]]
  , startState := "zz"
  , acceptStates := [[("state", "s0")]] }

/-- The automaton the loader builds from `doc10A`. -/
def w10A : Dfa :=
  { states := ["s0"]
  , transitions := [("s0", [("a", "s0")])]
  , start := "zz"
  , accepts := ["s0"] }

/-- A well-formed concrete input document. -/
def doc10B : RawDoc :=
  { states := [[("state", "t0"), ("a", "t0")]]
  , startState := "t0"
  , acceptStates := [[("state", "t0")]] }

/-- The automaton the loader builds from `doc10B`. -/
def w10B : Dfa :=
  { states := ["t0"]
  , transitions := [("t0", [("a", "t0")])]
  , start := "t0"
  , accepts := ["t0"] }

/-- The shape of one serialized state entry of a product state. -/
def entryShape (pt : Table) (p : St) (entry : List (String × String)) : Prop :=
  ∃ row, pt.lookup p = some row ∧ row ≠ [] ∧
    ("state" : String) ∉ row.map Prod.fst ∧ (row.map Prod.fst).Nodup ∧
    entry = ("state", tupToName p) :: row.map (fun kv => (kv.1, tupToName kv.2))

/-- The product transition table of the worked example. -/
def exPT : Table :=
  [(("q0", "p0"), [("a", ("q1", "p0"))]),
   (("q1", "p0"), [("a", ("q1", "p0"))])]

/-- First automaton of the comma collision counterexample: its state names
contain commas. -/
def x7A : Dfa :=
  { states := ["a,b", "a"]
  , transitions :=
      [("a,b", [("p", "a"), ("q", "a,b")]),
       ("a", [("p", "a,b"), ("q", "a")])]
  , start := "a,b"
  , accepts := ["a"] }

/-- Second automaton of the comma collision counterexample. -/
def x7B : Dfa :=
  { states := ["c", "b,c"]
  , transitions :=
      [("c", [("p", "c"), ("q", "b,c")]),
       ("b,c", [("p", "b,c"), ("q", "c")])]
  , start := "c"
  , accepts := [] }

/-- The product states of the counterexample: four distinct pairs. -/
def x7Ps : List St := generateUnionStates x7A x7B

/-- The generated product transition table of the counterexample. -/
def x7Pt : Table :=
  [(("a,b", "c"), [("p", ("a", "c")), ("q", ("a,b", "b,c"))]),
   (("a,b", "b,c"), [("p", ("a", "b,c")), ("q", ("a,b", "c"))]),
   (("a", "c"), [("p", ("a,b", "c")), ("q", ("a", "b,c"))]),
   (("a", "b,c"), [("p", ("a,b", "b,c")), ("q", ("a", "c"))])]

/-- The derived start state of the counterexample. -/
def x7Start : St := ("a,b", "c")

/-- The derived accepting states of the counterexample. -/
def x7Accs : List St := generateUnionAcceptStates x7A x7B x7Ps

/-- The document the serializer writes for the counterexample union. -/
def x7Doc : RawDoc :=
  (outputUnionDFA x7Ps x7Pt x7Start x7Accs).getD ⟨[], "", []⟩

/-- The automaton the loader builds back from that document. -/
def x7R : Dfa := ((readDFA x7Doc).toOption).getD ⟨[], [], "", []⟩

example : generateUnionStates exA exB = [("q0", "p0"), ("q1", "p0")] := by
  decide

example :
    generateUnionTransitions exA exB (generateUnionStates exA exB) =
      .ok ⟨[("q0", "p0"), ("q1", "p0")],
        [(("q0", "p0"), [("a", ("q1", "p0"))]),
         (("q1", "p0"), [("a", ("q1", "p0"))])]⟩ := by
  rfl

example :
    generateUnionAcceptStates exA exB (generateUnionStates exA exB) =
      [("q1", "p0")] := by
  decide

example : generateUnionStartState exA exB = ("q0", "p0") := by decide

section ConstructorLemmas

lemma buildRow_ok_iff (dfa1 dfa2 : Dfa) (p : St) (syms : List String) :
    (∃ r, buildRow dfa1 dfa2 p syms = .ok r) ↔
      ∀ sym ∈ syms, (trans2 dfa1 p.1 sym).isSome ∧ (trans2 dfa2 p.2 sym).isSome := by
  induction syms with
  | nil => simp [buildRow]
  | cons s rest ih =>
    rw [buildRow]
    rcases h1 : trans2 dfa1 p.1 s with _ | n1 <;>
      rcases h2 : trans2 dfa2 p.2 s with _ | n2
    · refine ⟨fun ⟨r, hr⟩ => Except.noConfusion hr, fun h => ?_⟩
      exact absurd (h s (by simp)).1 (by simp [h1])
    · refine ⟨fun ⟨r, hr⟩ => Except.noConfusion hr, fun h => ?_⟩
      exact absurd (h s (by simp)).1 (by simp [h1])
    · refine ⟨fun ⟨r, hr⟩ => Except.noConfusion hr, fun h => ?_⟩
      exact absurd (h s (by simp)).2 (by simp [h2])
    · rcases hb : buildRow dfa1 dfa2 p rest with e | r0
      · refine ⟨fun ⟨r, hr⟩ => Except.noConfusion hr, fun h => ?_⟩
        rcases ih.mpr (fun sym hm => h sym (List.mem_cons_of_mem _ hm)) with ⟨r0, hr0⟩
        rw [hb] at hr0
        exact Except.noConfusion hr0
      · refine ⟨fun _ sym hsym => ?_, fun _ => ⟨_, rfl⟩⟩
        rcases List.mem_cons.mp hsym with rfl | hm
        · exact ⟨by simp [h1], by simp [h2]⟩
        · exact ih.mp ⟨r0, hb⟩ sym hm

lemma buildRow_lookup (dfa1 dfa2 : Dfa) (p : St) (sym n1 n2 : String)
    (h1 : trans2 dfa1 p.1 sym = some n1) (h2 : trans2 dfa2 p.2 sym = some n2) :
    ∀ (syms : List String) (r : Row), buildRow dfa1 dfa2 p syms = .ok r →
      sym ∈ syms → r.lookup sym = some (n1, n2) := by
  intro syms
  induction syms with
  | nil => intro r _ hsym; cases hsym
  | cons s rest ih =>
    intro r hr hsym
    rw [buildRow] at hr
    rcases g1 : trans2 dfa1 p.1 s with _ | m1 <;>
      rcases g2 : trans2 dfa2 p.2 s with _ | m2 <;>
      simp only [g1, g2] at hr
    · exact Except.noConfusion hr
    · exact Except.noConfusion hr
    · exact Except.noConfusion hr
    · rcases hb : buildRow dfa1 dfa2 p rest with e | r0 <;> simp only [hb] at hr
      · exact Except.noConfusion hr
      · have hr' : ((s, (m1, m2)) :: r0 : Row) = r := by
          simpa using hr
        subst hr'
        by_cases he : sym = s
        · subst he
          rw [g1] at h1
          rw [g2] at h2
          simp only [Option.some.injEq] at h1 h2
          simp [List.lookup_cons, h1, h2]
        · have hm : sym ∈ rest := by
            rcases List.mem_cons.mp hsym with h | h
            · exact absurd h he
            · exact h
          have hne : (sym == s) = false := by simp [he]
          rw [List.lookup_cons, hne]
          exact ih r0 hb hm

lemma buildRow_error (dfa1 dfa2 : Dfa) (p : St) (syms : List String)
    (e : UnionError) (he : buildRow dfa1 dfa2 p syms = .error e) :
    ∃ sym ∈ syms, e = .missingTransition sym ∧
      (trans2 dfa1 p.1 sym = none ∨ trans2 dfa2 p.2 sym = none) := by
  induction syms with
  | nil => exact absurd he (by simp [buildRow])
  | cons s rest ih =>
    rw [buildRow] at he
    rcases g1 : trans2 dfa1 p.1 s with _ | m1 <;>
      rcases g2 : trans2 dfa2 p.2 s with _ | m2 <;>
      simp only [g1, g2] at he
    · have : (UnionError.missingTransition s : UnionError) = e := by simpa using he
      exact ⟨s, by simp, this.symm, Or.inl g1⟩
    · have : (UnionError.missingTransition s : UnionError) = e := by simpa using he
      exact ⟨s, by simp, this.symm, Or.inl g1⟩
    · have : (UnionError.missingTransition s : UnionError) = e := by simpa using he
      exact ⟨s, by simp, this.symm, Or.inr g2⟩
    · rcases hb : buildRow dfa1 dfa2 p rest with e' | r0 <;> simp only [hb] at he
      · have : e' = e := by simpa using he
        subst this
        rcases ih hb with ⟨sym, hm, hsym, hnone⟩
        exact ⟨sym, List.mem_cons_of_mem _ hm, hsym, hnone⟩
      · exact Except.noConfusion he

lemma buildTable_ok_iff (dfa1 dfa2 : Dfa) (syms : List String) (ps : List St) :
    (∃ t, buildTable dfa1 dfa2 syms ps = .ok t) ↔
      ∀ p ∈ ps, ∃ r, buildRow dfa1 dfa2 p syms = .ok r := by
  induction ps with
  | nil => simp [buildTable]
  | cons q rest ih =>
    rw [buildTable]
    rcases hq : buildRow dfa1 dfa2 q syms with e | rowq
    · refine ⟨fun ⟨t, ht⟩ => Except.noConfusion ht, fun h => ?_⟩
      rcases h q (by simp) with ⟨r, hr⟩
      rw [hq] at hr
      exact Except.noConfusion hr
    · rcases ht' : buildTable dfa1 dfa2 syms rest with e | t'
      · refine ⟨fun ⟨t, ht⟩ => Except.noConfusion ht, fun h => ?_⟩
        rcases ih.mpr (fun p hm => h p (List.mem_cons_of_mem _ hm)) with ⟨t0, ht0⟩
        rw [ht'] at ht0
        exact Except.noConfusion ht0
      · refine ⟨fun _ p hp => ?_, fun _ => ⟨_, rfl⟩⟩
        rcases List.mem_cons.mp hp with rfl | hmem
        · exact ⟨rowq, hq⟩
        · exact ih.mp ⟨t', ht'⟩ p hmem

lemma buildTable_lookup (dfa1 dfa2 : Dfa) (syms : List String) :
    ∀ (ps : List St) (t : Table), buildTable dfa1 dfa2 syms ps = .ok t →
      ∀ p ∈ ps, ∀ (r : Row), buildRow dfa1 dfa2 p syms = .ok r →
        t.lookup p = some r := by
  intro ps
  induction ps with
  | nil => intro t _ p hp; cases hp
  | cons q rest ih =>
    intro t ht p hp r hr
    rw [buildTable] at ht
    rcases hq : buildRow dfa1 dfa2 q syms with e | rowq <;> simp only [hq] at ht
    · exact Except.noConfusion ht
    rcases ht' : buildTable dfa1 dfa2 syms rest with e | t' <;> simp only [ht'] at ht
    · exact Except.noConfusion ht
    have htt : ((q, rowq) :: t' : Table) = t := by simpa using ht
    subst htt
    by_cases he : p = q
    · subst he
      rw [hq] at hr
      have : rowq = r := by simpa using hr
      subst this
      simp [List.lookup_cons]
    · have hne : (p == q) = false := by simp [he]
      have hmem : p ∈ rest := by
        rcases List.mem_cons.mp hp with h | h
        · exact absurd h he
        · exact h
      rw [List.lookup_cons, hne]
      exact ih t' ht' p hmem r hr

lemma buildTable_error (dfa1 dfa2 : Dfa) (syms : List String) (ps : List St)
    (e : UnionError) (he : buildTable dfa1 dfa2 syms ps = .error e) :
    ∃ p ∈ ps, buildRow dfa1 dfa2 p syms = .error e := by
  induction ps with
  | nil => exact absurd he (by simp [buildTable])
  | cons q rest ih =>
    rw [buildTable] at he
    rcases hq : buildRow dfa1 dfa2 q syms with e' | rowq <;> simp only [hq] at he
    · have : e' = e := by simpa using he
      subst this
      exact ⟨q, by simp, hq⟩
    rcases ht' : buildTable dfa1 dfa2 syms rest with e' | t' <;> simp only [ht'] at he
    · have : e' = e := by simpa using he
      subst this
      rcases ih ht' with ⟨p, hm, hp⟩
      exact ⟨p, List.mem_cons_of_mem _ hm, hp⟩
    · exact Except.noConfusion he

lemma symbolsOf_mem (d : Dfa) (sym : String) :
    sym ∈ symbolsOf d ↔ ∃ kv ∈ d.transitions, sym ∈ kv.2.map Prod.fst := by
  simp [symbolsOf, List.mem_dedup, List.mem_flatMap]

end ConstructorLemmas

/-- C1: over the symbol universe taken from the transition table of the first
automaton only, `generateUnionTransitions` succeeds exactly when both
transition lookups are defined for every product pair and every such symbol;
on success the table maps each pair and symbol to the pair of the two
lookups, and on failure it returns a `missingTransition` error naming an
offending symbol of that universe, with no partial table. -/
theorem generateUnionTransitions_spec (dfa1 dfa2 : Dfa) (ps : List St) :
    ((∀ p ∈ ps, ∀ sym ∈ symbolsOf dfa1,
        (trans2 dfa1 p.1 sym).isSome ∧ (trans2 dfa2 p.2 sym).isSome) ↔
      ∃ u, generateUnionTransitions dfa1 dfa2 ps = .ok u) ∧
    (∀ sym, sym ∈ symbolsOf dfa1 ↔ ∃ kv ∈ dfa1.transitions, sym ∈ kv.2.map Prod.fst) ∧
    (∀ u, generateUnionTransitions dfa1 dfa2 ps = .ok u →
      u.states = ps ∧
      ∀ p ∈ ps, ∀ sym ∈ symbolsOf dfa1, ∀ n1 n2,
        trans2 dfa1 p.1 sym = some n1 → trans2 dfa2 p.2 sym = some n2 →
        ∃ row, u.transitions.lookup p = some row ∧ row.lookup sym = some (n1, n2)) ∧
    (∀ e, generateUnionTransitions dfa1 dfa2 ps = .error e →
      ∃ sym, e = .missingTransition sym ∧ sym ∈ symbolsOf dfa1 ∧
        ∃ p ∈ ps, trans2 dfa1 p.1 sym = none ∨ trans2 dfa2 p.2 sym = none) := by
  refine ⟨?_, symbolsOf_mem dfa1, ?_, ?_⟩
  · constructor
    · intro h
      rcases (buildTable_ok_iff dfa1 dfa2 (symbolsOf dfa1) ps).mpr
          (fun p hp => (buildRow_ok_iff dfa1 dfa2 p (symbolsOf dfa1)).mpr (h p hp))
        with ⟨t, ht⟩
      exact ⟨⟨ps, t⟩, by rw [generateUnionTransitions, ht]⟩
    · rintro ⟨u, hu⟩ p hp sym hsym
      rw [generateUnionTransitions] at hu
      rcases ht : buildTable dfa1 dfa2 (symbolsOf dfa1) ps with e | t <;>
        simp only [ht] at hu
      · exact Except.noConfusion hu
      rcases (buildTable_ok_iff dfa1 dfa2 (symbolsOf dfa1) ps).mp ⟨t, ht⟩ p hp
        with ⟨r, hr⟩
      exact (buildRow_ok_iff dfa1 dfa2 p (symbolsOf dfa1)).mp ⟨r, hr⟩ sym hsym
  · intro u hu
    rw [generateUnionTransitions] at hu
    rcases ht : buildTable dfa1 dfa2 (symbolsOf dfa1) ps with e | t <;>
      simp only [ht] at hu
    · exact Except.noConfusion hu
    have hu' : (⟨ps, t⟩ : UnionParts) = u := by simpa using hu
    subst hu'
    refine ⟨rfl, ?_⟩
    intro p hp sym hsym n1 n2 h1 h2
    rcases (buildTable_ok_iff dfa1 dfa2 (symbolsOf dfa1) ps).mp ⟨t, ht⟩ p hp
      with ⟨r, hr⟩
    exact ⟨r, buildTable_lookup dfa1 dfa2 _ ps t ht p hp r hr,
      buildRow_lookup dfa1 dfa2 p sym n1 n2 h1 h2 _ r hr hsym⟩
  · intro e he
    rw [generateUnionTransitions] at he
    rcases ht : buildTable dfa1 dfa2 (symbolsOf dfa1) ps with e' | t <;>
      simp only [ht] at he
    · have : e' = e := by simpa using he
      subst this
      rcases buildTable_error dfa1 dfa2 _ ps e' ht with ⟨p, hp, hrow⟩
      rcases buildRow_error dfa1 dfa2 p _ e' hrow with ⟨sym, hm, hsym, hnone⟩
      exact ⟨sym, hsym, hm, p, hp, hnone⟩
    · exact Except.noConfusion he

/-- Witness for C1 at the worked example of the spec. -/
theorem generateUnionTransitions_spec_witness :
    ∃ u, generateUnionTransitions exA exB [("q0", "p0"), ("q1", "p0")] = .ok u := by
  have h := generateUnionTransitions_spec exA exB [("q0", "p0"), ("q1", "p0")]
  exact h.1.mp (by decide)

/-- C2: the product state set is exactly the Cartesian product of the two
state sets, its length is the product of the two lengths, and on duplicate
free inputs its cardinality as a set is that same product; the operation is
total. -/
theorem generateUnionStates_spec (dfa1 dfa2 : Dfa) :
    (∀ p : St, p ∈ generateUnionStates dfa1 dfa2 ↔
        p.1 ∈ dfa1.states ∧ p.2 ∈ dfa2.states) ∧
    (generateUnionStates dfa1 dfa2).length =
        dfa1.states.length * dfa2.states.length ∧
    (dfa1.states.Nodup → dfa2.states.Nodup →
      (generateUnionStates dfa1 dfa2).toFinset.card =
        dfa1.states.length * dfa2.states.length) := by
  refine ⟨?_, ?_, ?_⟩
  · rintro ⟨a, b⟩
    exact List.mem_product
  · exact List.length_product _ _
  · intro h1 h2
    rw [generateUnionStates, List.toFinset_card_of_nodup (List.Nodup.product h1 h2)]
    exact List.length_product _ _

/-- Witness for C2 at the worked example of the spec. -/
theorem generateUnionStates_spec_witness :
    (generateUnionStates exA exB).toFinset.card =
      exA.states.length * exB.states.length :=
  (generateUnionStates_spec exA exB).2.2 (by decide) (by decide)

/-- C3: a product state that is in the product state set is in the derived
accepting set exactly when its first component is accepting in the first
automaton or its second component is accepting in the second. -/
theorem generateUnionAcceptStates_spec (dfa1 dfa2 : Dfa) (ps : List St)
    (p : St) (hp : p ∈ ps) :
    p ∈ generateUnionAcceptStates dfa1 dfa2 ps ↔
      (p.1 ∈ dfa1.accepts ∨ p.2 ∈ dfa2.accepts) := by
  simp [generateUnionAcceptStates, List.mem_filter, hp]

/-- Witness for C3: all four truth combinations at a concrete pair of
automata. -/
theorem generateUnionAcceptStates_spec_witness :
    ("x", "u") ∈ generateUnionAcceptStates wA wB wPs ∧
    ("x", "v") ∈ generateUnionAcceptStates wA wB wPs ∧
    ("y", "u") ∈ generateUnionAcceptStates wA wB wPs ∧
    ("y", "v") ∉ generateUnionAcceptStates wA wB wPs := by
  have h1 := generateUnionAcceptStates_spec wA wB wPs ("x", "u") (by decide)
  have h2 := generateUnionAcceptStates_spec wA wB wPs ("x", "v") (by decide)
  have h3 := generateUnionAcceptStates_spec wA wB wPs ("y", "u") (by decide)
  have h4 := generateUnionAcceptStates_spec wA wB wPs ("y", "v") (by decide)
  refine ⟨h1.mpr (by decide), h2.mpr (by decide), h3.mpr (by decide), ?_⟩
  intro hc
  exact (by decide : ¬(("y", "v").1 ∈ wA.accepts ∨ ("y", "v").2 ∈ wB.accepts))
    (h4.mp hc)

/-- C4: the derived start state is exactly the pair of the two start states,
for every pair of automata, naming collisions included; the operation is
total, and the start pair lies in the product state set exactly when each
component start lies in its own state set. -/
theorem generateUnionStartState_spec (dfa1 dfa2 : Dfa) :
    generateUnionStartState dfa1 dfa2 = (dfa1.start, dfa2.start) ∧
    (generateUnionStartState dfa1 dfa2 ∈ generateUnionStates dfa1 dfa2 ↔
      dfa1.start ∈ dfa1.states ∧ dfa2.start ∈ dfa2.states) := by
  exact ⟨rfl, List.mem_product⟩

lemma popLast_pickSpec : PickSpec popLast := by
  constructor
  · intro l
    rw [popLast]
    rcases h : l.getLast? with _ | x
    · simpa using List.getLast?_eq_none_iff.mp h
    · simp only []
      constructor
      · intro hc
        exact Option.noConfusion hc
      · intro hl
        subst hl
        simp at h
  · intro l x r h
    rw [popLast] at h
    rcases hg : l.getLast? with _ | y <;> simp only [hg] at h
    · exact Option.noConfusion h
    · have hl : l ≠ [] := by
        intro hc
        subst hc
        simp at hg
      have : y = x ∧ l.dropLast = r := by simpa using h
      rcases this with ⟨rfl, _⟩
      rcases List.getLast?_eq_getLast l hl ▸ hg with hy
      have : y = l.getLast hl := by simpa using hy.symm
      subst this
      exact List.getLast_mem hl
  · intro l x r h y
    rw [popLast] at h
    rcases hg : l.getLast? with _ | z <;> simp only [hg] at h
    · exact Option.noConfusion h
    · have hl : l ≠ [] := by
        intro hc
        subst hc
        simp at hg
      have hzx : z = x ∧ l.dropLast = r := by simpa using h
      rcases hzx with ⟨rfl, hr⟩
      have hz : z = l.getLast hl := by
        have := List.getLast?_eq_getLast l hl ▸ hg
        simpa using this.symm
      conv_lhs => rw [← List.dropLast_append_getLast hl]
      rw [hr, ← hz]
      simp [List.mem_append, or_comm]
  · intro l x r h
    rw [popLast] at h
    rcases hg : l.getLast? with _ | z <;> simp only [hg] at h
    · exact Option.noConfusion h
    · have hl : l ≠ [] := by
        intro hc
        subst hc
        simp at hg
      have hzx : z = x ∧ l.dropLast = r := by simpa using h
      rcases hzx with ⟨rfl, hr⟩
      rw [← hr, List.length_dropLast]
      have : 1 ≤ l.length := by
        cases l with
        | nil => exact absurd rfl hl
        | cons a as => simp
      omega

lemma popFront_pickSpec : PickSpec popFront := by
  constructor
  · intro l
    cases l <;> simp [popFront]
  · intro l x r h
    cases l with
    | nil => exact Option.noConfusion h
    | cons a as =>
      have : a = x ∧ as = r := by simpa [popFront] using h
      rcases this with ⟨rfl, _⟩
      simp
  · intro l x r h y
    cases l with
    | nil => exact Option.noConfusion h
    | cons a as =>
      have : a = x ∧ as = r := by simpa [popFront] using h
      rcases this with ⟨rfl, rfl⟩
      simp
  · intro l x r h
    cases l with
    | nil => exact Option.noConfusion h
    | cons a as =>
      have : a = x ∧ as = r := by simpa [popFront] using h
      rcases this with ⟨rfl, rfl⟩
      simp

section TraversalLemmas

variable {pick : List St → Option (St × List St)} (pt : Table)

lemma reachLoopG_mono (fuel : Nat) :
    ∀ (stack visited r : List St),
      reachLoopG pick pt fuel stack visited = some r → ∀ x ∈ visited, x ∈ r := by
  induction fuel with
  | zero => intro stack visited r h; exact Option.noConfusion h
  | succ fuel ih =>
    intro stack visited r h x hx
    rw [reachLoopG] at h
    rcases hpk : pick stack with _ | cr <;> simp only [hpk] at h
    · have : visited = r := by simpa using h
      subst this
      exact hx
    · rcases cr with ⟨cur, rest⟩
      by_cases hcur : cur ∈ visited
      · rw [if_pos hcur] at h
        exact ih rest visited r h x hx
      · rw [if_neg hcur] at h
        exact ih _ _ r h x (List.mem_append.mpr (Or.inl hx))

lemma reachLoopG_stack (hp : PickSpec pick) (fuel : Nat) :
    ∀ (stack visited r : List St),
      reachLoopG pick pt fuel stack visited = some r → ∀ x ∈ stack, x ∈ r := by
  induction fuel with
  | zero => intro stack visited r h; exact Option.noConfusion h
  | succ fuel ih =>
    intro stack visited r h x hx
    rw [reachLoopG] at h
    rcases hpk : pick stack with _ | cr <;> simp only [hpk] at h
    · rw [(hp.eq_none stack).mp hpk] at hx
      cases hx
    · rcases cr with ⟨cur, rest⟩
      rcases (hp.mem_iff stack cur rest hpk x).mp hx with rfl | hrest
      · by_cases hcur : x ∈ visited
        · rw [if_pos hcur] at h
          exact reachLoopG_mono pt fuel rest visited r h x hcur
        · rw [if_neg hcur] at h
          exact reachLoopG_mono pt fuel _ _ r h x
            (List.mem_append.mpr (Or.inr (by simp)))
      · by_cases hcur : cur ∈ visited
        · rw [if_pos hcur] at h
          exact ih rest visited r h x hrest
        · rw [if_neg hcur] at h
          exact ih _ _ r h x (List.mem_append.mpr (Or.inl hrest))

lemma reachLoopG_sound (hp : PickSpec pick) (P : St → Prop)
    (hstep : ∀ x, P x → ∀ y ∈ succsOf pt x, P y) (fuel : Nat) :
    ∀ (stack visited r : List St),
      reachLoopG pick pt fuel stack visited = some r →
      (∀ x ∈ stack, P x) → (∀ x ∈ visited, P x) → ∀ x ∈ r, P x := by
  induction fuel with
  | zero => intro stack visited r h; exact Option.noConfusion h
  | succ fuel ih =>
    intro stack visited r h hstack hvis x hx
    rw [reachLoopG] at h
    rcases hpk : pick stack with _ | cr <;> simp only [hpk] at h
    · have : visited = r := by simpa using h
      subst this
      exact hvis x hx
    · rcases cr with ⟨cur, rest⟩
      have hcurP : P cur := hstack cur (hp.mem_self stack cur rest hpk)
      have hrestP : ∀ y ∈ rest, P y := fun y hy =>
        hstack y ((hp.mem_iff stack cur rest hpk y).mpr (Or.inr hy))
      by_cases hcur : cur ∈ visited
      · rw [if_pos hcur] at h
        exact ih rest visited r h hrestP hvis x hx
      · rw [if_neg hcur] at h
        refine ih _ _ r h ?_ ?_ x hx
        · intro y hy
          rcases List.mem_append.mp hy with hy | hy
          · exact hrestP y hy
          · exact hstep cur hcurP y (List.mem_filter.mp hy).1
        · intro y hy
          rcases List.mem_append.mp hy with hy | hy
          · exact hvis y hy
          · have : y = cur := by simpa using hy
            subst this
            exact hcurP

lemma reachLoopG_closed (hp : PickSpec pick) (fuel : Nat) :
    ∀ (stack visited r : List St),
      reachLoopG pick pt fuel stack visited = some r →
      (∀ v ∈ visited, ∀ y ∈ succsOf pt v, y ∈ visited ∨ y ∈ stack) →
      ∀ v ∈ r, ∀ y ∈ succsOf pt v, y ∈ r := by
  induction fuel with
  | zero => intro stack visited r h; exact Option.noConfusion h
  | succ fuel ih =>
    intro stack visited r h hinv v hv y hy
    rw [reachLoopG] at h
    rcases hpk : pick stack with _ | cr <;> simp only [hpk] at h
    · have hvr : visited = r := by simpa using h
      subst hvr
      rcases hinv v hv y hy with hvis | hstk
      · exact hvis
      · rw [(hp.eq_none stack).mp hpk] at hstk
        cases hstk
    · rcases cr with ⟨cur, rest⟩
      by_cases hcur : cur ∈ visited
      · rw [if_pos hcur] at h
        refine ih rest visited r h ?_ v hv y hy
        intro w hw z hz
        rcases hinv w hw z hz with hvis | hstk
        · exact Or.inl hvis
        · rcases (hp.mem_iff stack cur rest hpk z).mp hstk with rfl | hz'
          · exact Or.inl hcur
          · exact Or.inr hz'
      · rw [if_neg hcur] at h
        refine ih _ _ r h ?_ v hv y hy
        intro w hw z hz
        rcases List.mem_append.mp hw with hw | hw
        · rcases hinv w hw z hz with hvis | hstk
          · exact Or.inl (List.mem_append.mpr (Or.inl hvis))
          · rcases (hp.mem_iff stack cur rest hpk z).mp hstk with rfl | hz'
            · exact Or.inl (List.mem_append.mpr (Or.inr (by simp)))
            · exact Or.inr (List.mem_append.mpr (Or.inl hz'))
        · have hwc : w = cur := by simpa using hw
          subst hwc
          by_cases hzv : z ∈ visited ++ [w]
          · exact Or.inl hzv
          · refine Or.inr (List.mem_append.mpr (Or.inr ?_))
            rw [List.mem_filter]
            exact ⟨hz, by simpa using hzv⟩

end TraversalLemmas

section TraversalTotality

lemma lookup_mem {α β : Type} [BEq α] [LawfulBEq α] (l : List (α × β)) (k : α)
    (b : β) (h : List.lookup k l = some b) : (k, b) ∈ l := by
  rcases List.lookup_eq_some_iff.mp h with ⟨l₁, l₂, rfl, _⟩
  simp

lemma mem_targets_length_le (kv : St × Row) (l : List (St × Row)) (h : kv ∈ l) :
    (kv.2.map Prod.snd).length ≤ (targetsOf l).length := by
  induction l with
  | nil => cases h
  | cons a as ih =>
    rw [targetsOf, List.flatMap_cons]
    rcases List.mem_cons.mp h with rfl | h
    · simp
    · have hle := ih h
      rw [targetsOf] at hle
      simp only [List.length_append]
      omega

lemma succsOf_length_le (pt : Table) (x : St) :
    (succsOf pt x).length ≤ (targetsOf pt).length := by
  rw [succsOf]
  rcases h : pt.lookup x with _ | row
  · simp
  · exact mem_targets_length_le (x, row) pt (lookup_mem pt x row h)

lemma succsOf_subset_targets (pt : Table) (x : St) :
    ∀ y ∈ succsOf pt x, y ∈ targetsOf pt := by
  intro y hy
  rw [succsOf] at hy
  rcases h : pt.lookup x with _ | row <;> rw [h] at hy
  · cases hy
  · rw [targetsOf]
    exact List.mem_flatMap.mpr ⟨(x, row), lookup_mem pt x row h, hy⟩

variable {pick : List St → Option (St × List St)} (pt : Table)

lemma reachLoopG_isSome (hp : PickSpec pick) (U : List St)
    (hU : ∀ x, ∀ y ∈ succsOf pt x, y ∈ U) :
    ∀ (fuel : Nat) (stack visited : List St),
      (∀ x ∈ stack, x ∈ U) →
      stack.length +
        (U.toFinset \ visited.toFinset).card * (1 + (targetsOf pt).length) < fuel →
      ∃ r, reachLoopG pick pt fuel stack visited = some r := by
  intro fuel
  induction fuel with
  | zero => intro stack visited _ hlt; omega
  | succ fuel ih =>
    intro stack visited hstack hlt
    rw [reachLoopG]
    rcases hpk : pick stack with _ | cr
    · exact ⟨visited, rfl⟩
    rcases cr with ⟨cur, rest⟩
    dsimp only
    have hlen := hp.len stack cur rest hpk
    by_cases hcur : cur ∈ visited
    · rw [if_pos hcur]
      refine ih rest visited
        (fun x hx => hstack x ((hp.mem_iff stack cur rest hpk x).mpr (Or.inr hx))) ?_
      omega
    · rw [if_neg hcur]
      have hcurU : cur ∈ U := hstack cur (hp.mem_self stack cur rest hpk)
      have hcurd : cur ∈ U.toFinset \ visited.toFinset := by
        rw [Finset.mem_sdiff, List.mem_toFinset, List.mem_toFinset]
        exact ⟨hcurU, hcur⟩
      have hposD : 0 < (U.toFinset \ visited.toFinset).card :=
        Finset.card_pos.mpr ⟨cur, hcurd⟩
      obtain ⟨D, hD⟩ : ∃ D, (U.toFinset \ visited.toFinset).card = D + 1 :=
        ⟨(U.toFinset \ visited.toFinset).card - 1, by omega⟩
      have hv' : (visited ++ [cur]).toFinset = insert cur visited.toFinset := by
        rw [List.toFinset_append]
        ext z
        simp [or_comm]
      have hcard : (U.toFinset \ (visited ++ [cur]).toFinset).card = D := by
        rw [hv', Finset.sdiff_insert, Finset.card_erase_of_mem hcurd, hD]
        omega
      have hnews :
          ((succsOf pt cur).filter
            (fun n => decide (n ∉ visited ++ [cur]))).length ≤
            (targetsOf pt).length :=
        le_trans (List.length_filter_le _ _) (succsOf_length_le pt cur)
      have hsub : ∀ x ∈ rest ++ (succsOf pt cur).filter
          (fun n => decide (n ∉ visited ++ [cur])), x ∈ U := by
        intro x hx
        rcases List.mem_append.mp hx with hx | hx
        · exact hstack x ((hp.mem_iff stack cur rest hpk x).mpr (Or.inr hx))
        · exact hU cur x (List.mem_filter.mp hx).1
      refine ih _ _ hsub ?_
      rw [hcard]
      rw [hD] at hlt
      have hmul : (D + 1) * (1 + (targetsOf pt).length) =
          D * (1 + (targetsOf pt).length) + (1 + (targetsOf pt).length) := by
        ring
      rw [hmul] at hlt
      have hlapp : (rest ++ (succsOf pt cur).filter
          (fun n => decide (n ∉ visited ++ [cur]))).length =
          rest.length + ((succsOf pt cur).filter
            (fun n => decide (n ∉ visited ++ [cur]))).length :=
        List.length_append _ _
      omega

lemma reachLoopG_total (hp : PickSpec pick) (start : St) :
    ∃ r, reachLoopG pick pt (reachFuel pt start) [start] [] = some r := by
  refine reachLoopG_isSome pt hp (start :: targetsOf pt)
    (fun x y hy => List.mem_cons_of_mem _ (succsOf_subset_targets pt x y hy))
    (reachFuel pt start) [start] []
    (fun x hx => by simpa using Or.inl (by simpa using hx)) ?_
  have hcard : ((start :: targetsOf pt).toFinset \ ([] : List St).toFinset).card ≤
      (start :: targetsOf pt).length := by
    rw [List.toFinset_nil, Finset.sdiff_empty]
    exact List.toFinset_card_le _
  have hmul : ((start :: targetsOf pt).toFinset \ ([] : List St).toFinset).card *
      (1 + (targetsOf pt).length) ≤
      (start :: targetsOf pt).length * (1 + (targetsOf pt).length) :=
    Nat.mul_le_mul_right _ hcard
  have hone : ([start] : List St).length = 1 := rfl
  rw [reachFuel]
  omega

lemma reachLoopG_run_mem (hp : PickSpec pick) (start : St) (r : List St)
    (h : reachLoopG pick pt (reachFuel pt start) [start] [] = some r) :
    ∀ x, x ∈ r ↔ Reaches pt start x := by
  intro x
  constructor
  · intro hx
    refine reachLoopG_sound pt hp (Reaches pt start)
      (fun a ha y hy => Reaches.step ha hy) _ _ _ _ h ?_ ?_ x hx
    · intro z hz
      have : z = start := by simpa using hz
      subst this
      exact Reaches.refl
    · intro z hz
      cases hz
  · intro hx
    induction hx with
    | refl => exact reachLoopG_stack pt hp _ _ _ _ h start (by simp)
    | @step a b ha hb ih =>
      exact reachLoopG_closed pt hp _ _ _ _ h (fun v hv => by cases hv) a ih b hb

lemma reachableFrom_mem (pt : Table) (start : St) :
    ∀ x, x ∈ reachableFrom pt start ↔ Reaches pt start x := by
  rcases reachLoopG_total pt popLast_pickSpec start with ⟨r, hr⟩
  intro x
  rw [reachableFrom, hr]
  simpa using reachLoopG_run_mem pt popLast_pickSpec start r hr x

lemma reachableFromQueue_mem (pt : Table) (start : St) :
    ∀ x, x ∈ reachableFromQueue pt start ↔ Reaches pt start x := by
  rcases reachLoopG_total pt popFront_pickSpec start with ⟨r, hr⟩
  intro x
  rw [reachableFromQueue, hr]
  simpa using reachLoopG_run_mem pt popFront_pickSpec start r hr x

end TraversalTotality

section ValidatorLemmas

lemma checkState_isSome (dfa1 : Dfa) (ps : List St) (pt : Table) (st : St)
    (htr : dfa1.transitions ≠ []) : (checkState dfa1 ps pt st).isSome := by
  rw [checkState]
  rcases h : pt.lookup st with _ | row
  · rfl
  · rw [refSymbols]
    rcases hh : dfa1.transitions.head? with _ | kv
    · exact absurd (by simpa using hh) htr
    · rfl

lemma stateErrorsLoop_some (dfa1 : Dfa) (psAll : List St) (pt : Table)
    (htr : dfa1.transitions ≠ []) :
    ∀ ps : List St, ∃ e2, stateErrorsLoop dfa1 psAll pt ps = some e2 := by
  intro ps
  induction ps with
  | nil => exact ⟨[], rfl⟩
  | cons st rest ih =>
    rcases ih with ⟨es, hes⟩
    rcases hc : checkState dfa1 psAll pt st with _ | e
    · have := checkState_isSome dfa1 psAll pt st htr
      rw [hc] at this
      cases this
    · exact ⟨e ++ es, by rw [stateErrorsLoop, hc, hes]⟩

lemma checkState_none_shape (dfa1 : Dfa) (ps : List St) (pt : Table) (st : St)
    (e : List Finding) (h : checkState dfa1 ps pt st = some e) :
    ∀ l, Finding.unreachableStates l ∉ e := by
  intro l hl
  rw [checkState] at h
  rcases hr : pt.lookup st with _ | row <;> rw [hr] at h <;> dsimp only at h
  · have : ([.noTransitions st] : List Finding) = e := Option.some.inj h
    subst this
    simp at hl
  · rcases hs : refSymbols dfa1 with _ | syms <;> rw [hs] at h <;> dsimp only at h
    · exact Option.noConfusion h
    · have he := Option.some.inj h
      subst he
      rcases List.mem_flatMap.mp hl with ⟨sym, _, hmem⟩
      rcases hlk : row.lookup sym with _ | tgt <;> rw [hlk] at hmem <;>
        dsimp only at hmem
      · simp at hmem
      · by_cases htgt : tgt ∈ ps
        · rw [if_pos htgt] at hmem
          cases hmem
        · rw [if_neg htgt] at hmem
          simp at hmem

lemma stateErrorsLoop_shape (dfa1 : Dfa) (psAll : List St) (pt : Table) :
    ∀ (ps : List St) (e2 : List Finding),
      stateErrorsLoop dfa1 psAll pt ps = some e2 →
      ∀ l, Finding.unreachableStates l ∉ e2 := by
  intro ps
  induction ps with
  | nil =>
    intro e2 h l hl
    have : ([] : List Finding) = e2 := by simpa [stateErrorsLoop] using h
    subst this
    cases hl
  | cons st rest ih =>
    intro e2 h l hl
    rw [stateErrorsLoop] at h
    rcases hc : checkState dfa1 psAll pt st with _ | e <;> rw [hc] at h
    · exact Option.noConfusion h
    rcases hes : stateErrorsLoop dfa1 psAll pt rest with _ | es <;> rw [hes] at h
    · exact Option.noConfusion h
    have : e ++ es = e2 := by simpa using h
    subst this
    rcases List.mem_append.mp hl with hl | hl
    · exact checkState_none_shape dfa1 psAll pt st e hc l hl
    · exact ih es hes l hl

lemma startErrors_shape (ps : List St) (start : St) :
    ∀ l, Finding.unreachableStates l ∉ startErrors ps start := by
  intro l hl
  rw [startErrors] at hl
  by_cases h : start ∈ ps
  · rw [if_pos h] at hl
    cases hl
  · rw [if_neg h] at hl
    simp at hl

lemma acceptErrors_shape (ps accs : List St) :
    ∀ l, Finding.unreachableStates l ∉ acceptErrors ps accs := by
  intro l hl
  rw [acceptErrors] at hl
  rcases List.mem_map.mp hl with ⟨a, _, ha⟩
  cases ha

lemma unreachableFinding_mem (ps reach : List St) :
    (∃ l, Finding.unreachableStates l ∈ unreachableFinding ps reach) ↔
      ∃ p ∈ ps, p ∉ reach := by
  rw [unreachableFinding]
  rcases hf : ps.filter (fun p => decide (p ∉ reach)) with _ | ⟨q, l'⟩
  · simp only []
    constructor
    · rintro ⟨l, hl⟩
      cases hl
    · rintro ⟨p, hp, hpr⟩
      have : p ∈ ps.filter (fun p => decide (p ∉ reach)) :=
        List.mem_filter.mpr ⟨hp, by simpa using hpr⟩
      rw [hf] at this
      cases this
  · simp only []
    constructor
    · rintro ⟨l, hl⟩
      have hq : q ∈ ps.filter (fun p => decide (p ∉ reach)) := by
        rw [hf]
        simp
      have := List.mem_filter.mp hq
      exact ⟨q, this.1, by simpa using this.2⟩
    · intro _
      exact ⟨q :: l', by simp⟩

lemma unreachableFinding_eq_nil (ps reach : List St) :
    unreachableFinding ps reach = [] ↔ ∀ p ∈ ps, p ∈ reach := by
  rw [unreachableFinding]
  rcases hf : ps.filter (fun p => decide (p ∉ reach)) with _ | ⟨q, l'⟩
  · simp only []
    constructor
    · intro _ p hp
      by_contra hpr
      have : p ∈ ps.filter (fun p => decide (p ∉ reach)) :=
        List.mem_filter.mpr ⟨hp, by simpa using hpr⟩
      rw [hf] at this
      cases this
    · intro _
      trivial
  · simp only []
    constructor
    · intro h
      exact absurd h (by simp)
    · intro h
      have hq : q ∈ ps.filter (fun p => decide (p ∉ reach)) := by
        rw [hf]
        simp
      have hm := List.mem_filter.mp hq
      exact absurd (h q hm.1) (by simpa using hm.2)

lemma unreachableFinding_lists (ps reach : List St) :
    ∀ l, Finding.unreachableStates l ∈ unreachableFinding ps reach →
      l = ps.filter (fun p => decide (p ∉ reach)) := by
  intro l hl
  rw [unreachableFinding] at hl
  rcases hf : ps.filter (fun p => decide (p ∉ reach)) with _ | ⟨q, l'⟩ <;>
    rw [hf] at hl
  · cases hl
  · have : Finding.unreachableStates l = Finding.unreachableStates (q :: l') := by
      simpa using hl
    simpa using this

end ValidatorLemmas

section ValidatorCharacterization

lemma checkState_eq_nil (dfa1 : Dfa) (ps : List St) (pt : Table) (st : St)
    (syms : List String) (hs : refSymbols dfa1 = some syms) :
    checkState dfa1 ps pt st = some [] ↔
      ∃ row, pt.lookup st = some row ∧
        ∀ sym ∈ syms, ∃ tgt, row.lookup sym = some tgt ∧ tgt ∈ ps := by
  rw [checkState]
  rcases hr : pt.lookup st with _ | row <;> dsimp only
  · constructor
    · intro h
      have := Option.some.inj h
      cases this
    · rintro ⟨row, hrow, _⟩
      exact Option.noConfusion hrow
  · rw [hs]
    dsimp only
    constructor
    · intro h
      have hnil := Option.some.inj h
      refine ⟨row, rfl, ?_⟩
      intro sym hsym
      have hf := List.flatMap_eq_nil_iff.mp hnil sym hsym
      rcases hlk : row.lookup sym with _ | tgt <;> rw [hlk] at hf <;> dsimp only at hf
      · exact absurd hf (by simp)
      · by_cases htgt : tgt ∈ ps
        · exact ⟨tgt, rfl, htgt⟩
        · rw [if_neg htgt] at hf
          exact absurd hf (by simp)
    · rintro ⟨row', hrow', hall⟩
      have hrr : row' = row := by
        have := Option.some.inj hrow'
        exact this.symm
      subst hrr
      congr 1
      rw [List.flatMap_eq_nil_iff]
      intro sym hsym
      rcases hall sym hsym with ⟨tgt, hlk, htgt⟩
      rw [hlk]
      dsimp only
      rw [if_pos htgt]

lemma stateErrorsLoop_eq_nil (dfa1 : Dfa) (psAll : List St) (pt : Table) :
    ∀ (ps : List St) (e2 : List Finding),
      stateErrorsLoop dfa1 psAll pt ps = some e2 →
      (e2 = [] ↔ ∀ st ∈ ps, checkState dfa1 psAll pt st = some []) := by
  intro ps
  induction ps with
  | nil =>
    intro e2 h
    have : ([] : List Finding) = e2 := Option.some.inj (by simpa [stateErrorsLoop] using h)
    subst this
    simp
  | cons st rest ih =>
    intro e2 h
    rw [stateErrorsLoop] at h
    rcases hc : checkState dfa1 psAll pt st with _ | e <;> rw [hc] at h <;>
      dsimp only at h
    · exact Option.noConfusion h
    rcases hes : stateErrorsLoop dfa1 psAll pt rest with _ | es <;> rw [hes] at h <;>
      dsimp only at h
    · exact Option.noConfusion h
    have : e ++ es = e2 := Option.some.inj h
    subst this
    rw [List.append_eq_nil]
    constructor
    · rintro ⟨he, hesnil⟩ s hsm
      rcases List.mem_cons.mp hsm with rfl | hsm
      · rw [hc, he]
      · exact ((ih es hes).mp hesnil) s hsm
    · intro hall
      constructor
      · have := hall st (by simp)
        rw [hc] at this
        exact Option.some.inj this |>.symm ▸ rfl
      · exact (ih es hes).mpr (fun s hsm => hall s (List.mem_cons_of_mem _ hsm))

lemma validateUnionDFA_eq (dfa1 dfa2 : Dfa) (ps : List St) (pt : Table)
    (start : St) (accs : List St) (e2 : List Finding)
    (h2 : stateErrorsLoop dfa1 ps pt ps = some e2) :
    validateUnionDFA dfa1 dfa2 ps pt start accs =
      some (mkResult (startErrors ps start ++ e2 ++ acceptErrors ps accs ++
        unreachableFinding ps (reachableFrom pt start))) := by
  rw [validateUnionDFA, h2]

end ValidatorCharacterization

/-- C6 (amended): provided the first automaton has a non-empty transition
table, validation never raises: it returns a structured result, which is
success exactly when all four checks are clean, and otherwise the failure
carrying the full accumulated finding list in the order start findings,
per-state transition findings in state order, accept findings, unreachable
finding. -/
theorem validateUnionDFA_spec (dfa1 dfa2 : Dfa) (ps : List St) (pt : Table)
    (start : St) (accs : List St) (htr : dfa1.transitions ≠ []) :
    ∃ e2 : List Finding,
      stateErrorsLoop dfa1 ps pt ps = some e2 ∧
      validateUnionDFA dfa1 dfa2 ps pt start accs =
        some (mkResult (startErrors ps start ++ e2 ++ acceptErrors ps accs ++
          unreachableFinding ps (reachableFrom pt start))) ∧
      (startErrors ps start = [] ↔ start ∈ ps) ∧
      (∀ syms, refSymbols dfa1 = some syms →
        (e2 = [] ↔ ∀ st ∈ ps, ∃ row, pt.lookup st = some row ∧
          ∀ sym ∈ syms, ∃ tgt, row.lookup sym = some tgt ∧ tgt ∈ ps)) ∧
      (acceptErrors ps accs = [] ↔ ∀ a ∈ accs, a ∈ ps) ∧
      (unreachableFinding ps (reachableFrom pt start) = [] ↔
        ∀ p ∈ ps, Reaches pt start p) ∧
      (∀ res, validateUnionDFA dfa1 dfa2 ps pt start accs = some res →
        (res = .success ↔ startErrors ps start = [] ∧ e2 = [] ∧
          acceptErrors ps accs = [] ∧
          unreachableFinding ps (reachableFrom pt start) = [])) := by
  rcases stateErrorsLoop_some dfa1 ps pt htr ps with ⟨e2, h2⟩
  refine ⟨e2, h2, validateUnionDFA_eq dfa1 dfa2 ps pt start accs e2 h2, ?_, ?_, ?_, ?_, ?_⟩
  · rw [startErrors]
    by_cases h : start ∈ ps
    · simp [h]
    · simp [h]
  · intro syms hs
    rw [stateErrorsLoop_eq_nil dfa1 ps pt ps e2 h2]
    constructor
    · intro hall st hst
      exact (checkState_eq_nil dfa1 ps pt st syms hs).mp (hall st hst)
    · intro hall st hst
      exact (checkState_eq_nil dfa1 ps pt st syms hs).mpr (hall st hst)
  · rw [acceptErrors]
    constructor
    · intro h a ha
      by_contra hc
      have : a ∈ accs.filter (fun a => decide (a ∉ ps)) :=
        List.mem_filter.mpr ⟨ha, by simpa using hc⟩
      rw [List.map_eq_nil_iff.mp h] at this
      cases this
    · intro h
      rw [List.filter_eq_nil_iff.mpr (fun a ha => by simpa using h a ha)]
      rfl
  · rw [unreachableFinding_eq_nil]
    constructor
    · intro h p hp
      exact (reachableFrom_mem pt start p).mp (h p hp)
    · intro h p hp
      exact (reachableFrom_mem pt start p).mpr (h p hp)
  · intro res hres
    rw [validateUnionDFA, h2] at hres
    dsimp only at hres
    have hres' := Option.some.inj hres
    subst hres'
    rw [mkResult]
    by_cases hall : startErrors ps start ++ e2 ++ acceptErrors ps accs ++
        unreachableFinding ps (reachableFrom pt start) = []
    · rw [if_pos hall]
      rcases List.append_eq_nil.mp hall with ⟨h123, h4⟩
      rcases List.append_eq_nil.mp h123 with ⟨h12, h3⟩
      rcases List.append_eq_nil.mp h12 with ⟨hs1, hs2⟩
      simp [hs1, hs2, h3, h4]
    · rw [if_neg hall]
      constructor
      · intro hc
        exact ValidationResult.noConfusion hc
      · rintro ⟨hs1, hs2, h3, h4⟩
        exact absurd (by rw [hs1, hs2, h3, h4]; rfl) hall

/-- Witness for C6 at the worked example of the spec. -/
theorem validateUnionDFA_spec_witness :
    validateUnionDFA exA exB [("q0", "p0"), ("q1", "p0")]
      [(("q0", "p0"), [("a", ("q1", "p0"))]),
       (("q1", "p0"), [("a", ("q1", "p0"))])]
      ("q0", "p0") [("q1", "p0")] = some .success := by
  rcases validateUnionDFA_spec exA exB [("q0", "p0"), ("q1", "p0")]
      [(("q0", "p0"), [("a", ("q1", "p0"))]),
       (("q1", "p0"), [("a", ("q1", "p0"))])]
      ("q0", "p0") [("q1", "p0")] (by decide)
    with ⟨e2, h2, heq, _, _, _, _⟩
  have : stateErrorsLoop exA [("q0", "p0"), ("q1", "p0")]
      [(("q0", "p0"), [("a", ("q1", "p0"))]),
       (("q1", "p0"), [("a", ("q1", "p0"))])]
      [("q0", "p0"), ("q1", "p0")] = some [] := by rfl
  rw [this] at h2
  have he2 : ([] : List Finding) = e2 := Option.some.inj h2
  subst he2
  rw [heq]
  rfl

/-- Counterexample for C6 as stated: when the first automaton has an empty
transition table and some product state has a transition entry, the symbol
reference lookup of line 112 raises `StopIteration`, so the validator does
not return a structured result for this input. -/
theorem validateUnionDFA_raises :
    validateUnionDFA ⟨["s"], [], "s", []⟩ ⟨["s"], [], "s", []⟩
      [("s", "s")] [(("s", "s"), [("x", ("s", "s"))])] ("s", "s") [] = none := by
  rfl

lemma resultErrors_unreach (dfa1 dfa2 : Dfa) (ps : List St) (pt : Table)
    (start : St) (accs : List St) (res : ValidationResult)
    (h : validateUnionDFA dfa1 dfa2 ps pt start accs = some res) :
    ∀ l, Finding.unreachableStates l ∈ resultErrors res ↔
      Finding.unreachableStates l ∈
        unreachableFinding ps (reachableFrom pt start) := by
  intro l
  rw [validateUnionDFA] at h
  rcases hsl : stateErrorsLoop dfa1 ps pt ps with _ | e2 <;> rw [hsl] at h <;>
    dsimp only at h
  · exact Option.noConfusion h
  have hres := Option.some.inj h
  subst hres
  rw [mkResult]
  by_cases hall : startErrors ps start ++ e2 ++ acceptErrors ps accs ++
      unreachableFinding ps (reachableFrom pt start) = []
  · rw [if_pos hall]
    have h4 := (List.append_eq_nil.mp hall).2
    rw [h4]
    exact ⟨fun hc => absurd hc (by simp [resultErrors]), fun hc => absurd hc (by simp)⟩
  · rw [if_neg hall]
    rw [resultErrors]
    constructor
    · intro hm
      rcases List.mem_append.mp hm with hm | hm
      · rcases List.mem_append.mp hm with hm | hm
        · rcases List.mem_append.mp hm with hm | hm
          · exact absurd hm (startErrors_shape ps start l)
          · exact absurd hm (stateErrorsLoop_shape dfa1 ps pt ps e2 hsl l)
        · exact absurd hm (acceptErrors_shape ps accs l)
      · exact hm
    · intro hm
      exact List.mem_append.mpr (Or.inr hm)

/-- C5: whenever the validator returns a structured result, its reachability
finding exists exactly when some product state has no transition path from
the derived start state, the finding lists exactly the unreachable product
states, the reachable set computed by the stack traversal is exactly the
set of states reachable by zero or more transitions from the start state,
and a queue traversal computes the same set. -/
theorem validateUnionDFA_reachability (dfa1 dfa2 : Dfa) (ps : List St)
    (pt : Table) (start : St) (accs : List St) (res : ValidationResult)
    (h : validateUnionDFA dfa1 dfa2 ps pt start accs = some res) :
    ((∃ l, Finding.unreachableStates l ∈ resultErrors res) ↔
      ∃ p ∈ ps, ¬ Reaches pt start p) ∧
    (∀ l, Finding.unreachableStates l ∈ resultErrors res →
      ∀ p, p ∈ l ↔ (p ∈ ps ∧ ¬ Reaches pt start p)) ∧
    (∀ x, x ∈ reachableFrom pt start ↔ Reaches pt start x) ∧
    (∀ x, x ∈ reachableFromQueue pt start ↔ x ∈ reachableFrom pt start) := by
  have hkey := resultErrors_unreach dfa1 dfa2 ps pt start accs res h
  refine ⟨?_, ?_, reachableFrom_mem pt start, ?_⟩
  · constructor
    · rintro ⟨l, hl⟩
      rcases (unreachableFinding_mem ps (reachableFrom pt start)).mp
          ⟨l, (hkey l).mp hl⟩ with ⟨p, hp, hpr⟩
      exact ⟨p, hp, fun hc => hpr ((reachableFrom_mem pt start p).mpr hc)⟩
    · rintro ⟨p, hp, hpr⟩
      rcases (unreachableFinding_mem ps (reachableFrom pt start)).mpr
          ⟨p, hp, fun hc => hpr ((reachableFrom_mem pt start p).mp hc)⟩ with ⟨l, hl⟩
      exact ⟨l, (hkey l).mpr hl⟩
  · intro l hl p
    have hl4 := (hkey l).mp hl
    have := unreachableFinding_lists ps (reachableFrom pt start) l hl4
    subst this
    rw [List.mem_filter]
    constructor
    · rintro ⟨hp, hpr⟩
      refine ⟨hp, fun hc => ?_⟩
      have hpr' : p ∉ reachableFrom pt start := by simpa using hpr
      exact hpr' ((reachableFrom_mem pt start p).mpr hc)
    · rintro ⟨hp, hpr⟩
      refine ⟨hp, ?_⟩
      have hpr' : p ∉ reachableFrom pt start :=
        fun hc => hpr ((reachableFrom_mem pt start p).mp hc)
      simpa using hpr'
  · intro x
    rw [reachableFromQueue_mem pt start x, reachableFrom_mem pt start x]

example :
    generateUnionTransitions cA cB cPs = .ok ⟨cPs, cPt⟩ := by rfl

/-- Witness for C5: on the concrete union with a disconnected product state,
the validator reports a non-empty unreachable finding and indeed some
product state has no path from the start. -/
theorem validateUnionDFA_reachability_witness :
    ∃ p ∈ cPs, ¬ Reaches cPt ("q0", "p0") p := by
  have h := validateUnionDFA_reachability cA cB cPs cPt ("q0", "p0")
    [("q1", "p0")] (.failure [.unreachableStates [("q1", "p0")]]) (by rfl)
  exact h.1.mp ⟨[("q1", "p0")], by simp [resultErrors]⟩

/-- C9: the derived accepting set is always a subset of the product state
set it was filtered from, and consequently the accept membership check of
the validator produces no findings for a union built by this pipeline. -/
theorem generateUnionAcceptStates_subset (dfa1 dfa2 : Dfa) (ps : List St) :
    (∀ p ∈ generateUnionAcceptStates dfa1 dfa2 ps, p ∈ ps) ∧
    acceptErrors ps (generateUnionAcceptStates dfa1 dfa2 ps) = [] := by
  constructor
  · intro p hp
    exact (List.mem_filter.mp hp).1
  · have hmem : ∀ a ∈ generateUnionAcceptStates dfa1 dfa2 ps,
        ¬((fun a => decide (a ∉ ps)) a = true) := by
      intro a ha
      simpa using (List.mem_filter.mp ha).1
    rw [acceptErrors, List.filter_eq_nil_iff.mpr hmem]
    rfl

/-- Witness for C9 at a concrete pair of automata. -/
theorem generateUnionAcceptStates_subset_witness :
    acceptErrors wPs (generateUnionAcceptStates wA wB wPs) = [] :=
  (generateUnionAcceptStates_subset wA wB wPs).2

section PipelineLemmas

lemma mkResult_success_iff (errs : List Finding) :
    mkResult errs = .success ↔ errs = [] := by
  rw [mkResult]
  by_cases h : errs = []
  · simp [h]
  · simp only [if_neg h]
    exact ⟨fun hc => ValidationResult.noConfusion hc, fun hc => absurd hc h⟩

lemma checkState_nil_row (dfa1 : Dfa) (ps : List St) (pt : Table) (st : St)
    (h : checkState dfa1 ps pt st = some []) :
    ∃ row, pt.lookup st = some row := by
  rw [checkState] at h
  rcases hr : pt.lookup st with _ | row <;> rw [hr] at h <;> dsimp only at h
  · exact absurd (Option.some.inj h) (by simp)
  · exact ⟨row, rfl⟩

lemma validate_success_facts (dfa1 dfa2 : Dfa) (ps : List St) (pt : Table)
    (start : St) (accs : List St)
    (h : validateUnionDFA dfa1 dfa2 ps pt start accs = some .success) :
    start ∈ ps ∧
    (∀ st ∈ ps, checkState dfa1 ps pt st = some []) ∧
    (∀ p ∈ ps, p ∈ reachableFrom pt start) := by
  rw [validateUnionDFA] at h
  rcases hsl : stateErrorsLoop dfa1 ps pt ps with _ | e2 <;> rw [hsl] at h <;>
    dsimp only at h
  · exact Option.noConfusion h
  have hres := Option.some.inj h
  have hconcat := (mkResult_success_iff _).mp hres
  rcases List.append_eq_nil.mp hconcat with ⟨h123, h4⟩
  rcases List.append_eq_nil.mp h123 with ⟨h12, _⟩
  rcases List.append_eq_nil.mp h12 with ⟨hs1, hs2⟩
  refine ⟨?_, ?_, ?_⟩
  · rw [startErrors] at hs1
    by_cases hm : start ∈ ps
    · exact hm
    · rw [if_neg hm] at hs1
      exact absurd hs1 (by simp)
  · exact (stateErrorsLoop_eq_nil dfa1 ps pt ps e2 hsl).mp hs2
  · exact (unreachableFinding_eq_nil ps (reachableFrom pt start)).mp h4

lemma insertSorted_perm (x : St) (l : List St) :
    (insertSorted x l).Perm (x :: l) := by
  induction l with
  | nil => exact List.Perm.refl _
  | cons y rest ih =>
    rw [insertSorted]
    by_cases h : pairLe x y = true
    · rw [if_pos h]
    · rw [if_neg h]
      exact ((ih.cons y).trans (List.Perm.swap x y rest)).symm.symm

lemma sortPairs_perm (l : List St) : (sortPairs l).Perm l := by
  induction l with
  | nil => exact List.Perm.refl _
  | cons x rest ih =>
    rw [sortPairs]
    exact (insertSorted_perm x (sortPairs rest)).trans (ih.cons x)

lemma sortPairs_mem (l : List St) (x : St) : x ∈ sortPairs l ↔ x ∈ l :=
  (sortPairs_perm l).mem_iff

lemma buildEntries_some_of_rows (pt : Table) :
    ∀ ps' : List St, (∀ p ∈ ps', ∃ row, pt.lookup p = some row) →
      ∃ es, buildEntries ps' pt = some es := by
  intro ps'
  induction ps' with
  | nil => exact fun _ => ⟨[], rfl⟩
  | cons p rest ih =>
    intro h
    rcases h p (by simp) with ⟨row, hrow⟩
    rcases ih (fun q hq => h q (List.mem_cons_of_mem _ hq)) with ⟨es, hes⟩
    exact ⟨renderEntry p row :: es, by rw [buildEntries, hrow, hes]⟩

lemma outputUnionDFA_some (ps : List St) (pt : Table) (start : St)
    (accs : List St) (hrows : ∀ p ∈ ps, ∃ row, pt.lookup p = some row) :
    ∃ doc, outputUnionDFA ps pt start accs = some doc := by
  rcases buildEntries_some_of_rows pt (sortPairs ps)
      (fun p hp => hrows p ((sortPairs_mem ps p).mp hp)) with ⟨es, hes⟩
  exact ⟨_, by rw [outputUnionDFA, hes]⟩

end PipelineLemmas

/-- C8: the pipeline writes an output document exactly when validation of the
generated union succeeds; on a reported validation failure the defect list is
surfaced and no document is written, and an escaping exception also writes
nothing. -/
theorem runUnionPipeline_spec (dfa1 dfa2 : Dfa) :
    ((∃ doc, runUnionPipeline dfa1 dfa2 = .wrote doc) ↔
      (∃ parts, generateUnionTransitions dfa1 dfa2
          (generateUnionStates dfa1 dfa2) = .ok parts ∧
        validateUnionDFA dfa1 dfa2 (generateUnionStates dfa1 dfa2)
          parts.transitions (generateUnionStartState dfa1 dfa2)
          (generateUnionAcceptStates dfa1 dfa2 (generateUnionStates dfa1 dfa2)) =
            some .success)) ∧
    (∀ errs, runUnionPipeline dfa1 dfa2 = .validationFailed errs →
      ∃ parts, generateUnionTransitions dfa1 dfa2
          (generateUnionStates dfa1 dfa2) = .ok parts ∧
        validateUnionDFA dfa1 dfa2 (generateUnionStates dfa1 dfa2)
          parts.transitions (generateUnionStartState dfa1 dfa2)
          (generateUnionAcceptStates dfa1 dfa2 (generateUnionStates dfa1 dfa2)) =
            some (.failure errs)) := by
  rw [runUnionPipeline]
  rcases hg : generateUnionTransitions dfa1 dfa2 (generateUnionStates dfa1 dfa2)
    with e | parts <;> dsimp only
  · constructor
    · constructor
      · rintro ⟨doc, hdoc⟩
        exact PipelineOutcome.noConfusion hdoc
      · rintro ⟨parts, hparts, _⟩
        exact Except.noConfusion hparts
    · intro errs herrs
      exact PipelineOutcome.noConfusion herrs
  · rcases hv : validateUnionDFA dfa1 dfa2 (generateUnionStates dfa1 dfa2)
        parts.transitions (generateUnionStartState dfa1 dfa2)
        (generateUnionAcceptStates dfa1 dfa2 (generateUnionStates dfa1 dfa2))
      with _ | res <;> try dsimp only
    · constructor
      · constructor
        · rintro ⟨doc, hdoc⟩
          exact PipelineOutcome.noConfusion hdoc
        · rintro ⟨parts', hparts', hval'⟩
          have : parts = parts' := Except.ok.inj hparts'
          subst this
          rw [hv] at hval'
          exact Option.noConfusion hval'
      · intro errs herrs
        exact PipelineOutcome.noConfusion herrs
    · rcases res with _ | errs0
      · have hrows := (validate_success_facts dfa1 dfa2 _ _ _ _ hv).2.1
        rcases outputUnionDFA_some (generateUnionStates dfa1 dfa2)
            parts.transitions (generateUnionStartState dfa1 dfa2)
            (generateUnionAcceptStates dfa1 dfa2 (generateUnionStates dfa1 dfa2))
            (fun p hp => checkState_nil_row dfa1 _ _ p (hrows p hp))
          with ⟨doc, hdoc⟩
        rw [hdoc]
        dsimp only
        constructor
        · exact ⟨fun _ => ⟨parts, rfl, hv⟩, fun _ => ⟨doc, rfl⟩⟩
        · intro errs herrs
          exact PipelineOutcome.noConfusion herrs
      · constructor
        · constructor
          · rintro ⟨doc, hdoc⟩
            exact PipelineOutcome.noConfusion hdoc
          · rintro ⟨parts', hparts', hval'⟩
            have : parts = parts' := Except.ok.inj hparts'
            subst this
            rw [hv] at hval'
            exact ValidationResult.noConfusion (Option.some.inj hval')
        · intro errs herrs
          have : errs0 = errs := by
            have := PipelineOutcome.validationFailed.inj herrs
            exact this
          subst this
          exact ⟨parts, rfl, hv⟩

/-- Witness for C8: the pipeline writes a document at the worked example of
the spec. -/
theorem runUnionPipeline_spec_witness :
    ∃ doc, runUnionPipeline exA exB = .wrote doc :=
  (runUnionPipeline_spec exA exB).1.mpr
    ⟨⟨[("q0", "p0"), ("q1", "p0")],
      [(("q0", "p0"), [("a", ("q1", "p0"))]),
       (("q1", "p0"), [("a", ("q1", "p0"))])]⟩, by rfl, by rfl⟩

section LoaderLemmas

lemma addState_mem (l : List String) (s x : String) :
    x ∈ addState l s ↔ (x ∈ l ∨ x = s) := by
  rw [addState]
  by_cases h : s ∈ l
  · rw [if_pos h]
    constructor
    · exact Or.inl
    · rintro (hx | rfl)
      · exact hx
      · exact h
  · rw [if_neg h]
    simp

lemma dictInsert_ne_nil {β : Type} (m : List (String × β)) (k : String) (v : β) :
    dictInsert m k v ≠ [] := by
  cases m with
  | nil => simp [dictInsert]
  | cons kv rest =>
    rcases kv with ⟨k', v'⟩
    rw [dictInsert]
    by_cases h : k' = k
    · rw [if_pos h]
      simp
    · rw [if_neg h]
      simp

lemma readStates_mono :
    ∀ (es : List (List (String × String))) (sts : List String)
      (trs : List (String × List (String × String))) (sts' : List String)
      (trs' : List (String × List (String × String))),
      readStates es sts trs = .ok (sts', trs') → ∀ s ∈ sts, s ∈ sts' := by
  intro es
  induction es with
  | nil =>
    intro sts trs sts' trs' h s hs
    have := Prod.mk.injEq .. ▸ Except.ok.inj h
    rw [← this.1]
    exact hs
  | cons entry rest ih =>
    intro sts trs sts' trs' h s hs
    rw [readStates] at h
    rcases hl : entry.lookup ("state") with _ | name <;> rw [hl] at h <;>
      dsimp only at h
    · exact Except.noConfusion h
    rcases hf : entry.filter (fun kv => decide (kv.1 ≠ "state")) with _ | ⟨kv0, row0⟩ <;>
      rw [hf] at h <;> dsimp only at h
    · exact Except.noConfusion h
    · exact ih _ _ _ _ h s ((addState_mem sts name s).mpr (Or.inl hs))

lemma readStates_trs_ne :
    ∀ (es : List (List (String × String))) (sts : List String)
      (trs : List (String × List (String × String))) (sts' : List String)
      (trs' : List (String × List (String × String))),
      readStates es sts trs = .ok (sts', trs') → trs ≠ [] → trs' ≠ [] := by
  intro es
  induction es with
  | nil =>
    intro sts trs sts' trs' h htr
    have := Prod.mk.injEq .. ▸ Except.ok.inj h
    rw [← this.2]
    exact htr
  | cons entry rest ih =>
    intro sts trs sts' trs' h _
    rw [readStates] at h
    rcases hl : entry.lookup ("state") with _ | name <;> rw [hl] at h <;>
      dsimp only at h
    · exact Except.noConfusion h
    rcases hf : entry.filter (fun kv => decide (kv.1 ≠ "state")) with _ | ⟨kv0, row0⟩ <;>
      rw [hf] at h <;> dsimp only at h
    · exact Except.noConfusion h
    · exact ih _ _ _ _ h (dictInsert_ne_nil trs name (kv0 :: row0))

lemma readDFA_ok_ne (doc : RawDoc) (d : Dfa) (h : readDFA doc = .ok d) :
    d.states ≠ [] ∧ d.transitions ≠ [] := by
  rw [readDFA] at h
  by_cases h1 : doc.states = []
  · rw [if_pos h1] at h
    exact absurd h (by simp)
  rw [if_neg h1] at h
  by_cases h2 : doc.startState = ""
  · rw [if_pos h2] at h
    exact absurd h (by simp)
  rw [if_neg h2] at h
  by_cases h3 : doc.acceptStates = []
  · rw [if_pos h3] at h
    exact absurd h (by simp)
  rw [if_neg h3] at h
  by_cases h4 : pyStrip doc.startState = ""
  · rw [if_pos h4] at h
    exact absurd h (by simp)
  rw [if_neg h4] at h
  rcases hrs : readStates doc.states [] [] with e | str <;> rw [hrs] at h <;>
    dsimp only at h
  · exact Except.noConfusion h
  rcases str with ⟨sts, trs⟩
  rcases hra : readAccepts doc.acceptStates [] with e | accs <;> rw [hra] at h <;>
    dsimp only at h
  · exact Except.noConfusion h
  have hd := Except.ok.inj h
  subst hd
  rcases hes : doc.states with _ | ⟨entry, rest⟩
  · exact absurd hes h1
  rw [hes, readStates] at hrs
  rcases hl : entry.lookup ("state") with _ | name <;> rw [hl] at hrs <;>
    dsimp only at hrs
  · exact Except.noConfusion hrs
  rcases hf : entry.filter (fun kv => decide (kv.1 ≠ "state")) with _ | ⟨kv0, row0⟩ <;>
    rw [hf] at hrs <;> dsimp only at hrs
  · exact Except.noConfusion hrs
  constructor
  · have hmem : name ∈ sts := by
      refine readStates_mono rest _ _ _ _ hrs name ?_
      rw [addState_mem]
      exact Or.inr rfl
    intro hc
    dsimp only at hc
    rw [hc] at hmem
    cases hmem
  · intro hc
    dsimp only at hc
    exact readStates_trs_ne rest _ _ _ _ hrs
      (dictInsert_ne_nil [] name (kv0 :: row0)) hc

lemma buildTable_keys (dfa1 dfa2 : Dfa) (syms : List String) :
    ∀ (ps : List St) (t : Table), buildTable dfa1 dfa2 syms ps = .ok t →
      ∀ k, k ∉ ps → t.lookup k = none := by
  intro ps
  induction ps with
  | nil =>
    intro t ht k _
    have : ([] : Table) = t := Except.ok.inj ht
    rw [← this]
    rfl
  | cons q rest ih =>
    intro t ht k hk
    rw [buildTable] at ht
    rcases hq : buildRow dfa1 dfa2 q syms with e | rowq <;> rw [hq] at ht <;>
      dsimp only at ht
    · exact Except.noConfusion ht
    rcases ht' : buildTable dfa1 dfa2 syms rest with e | t' <;> rw [ht'] at ht <;>
      dsimp only at ht
    · exact Except.noConfusion ht
    have : (q, rowq) :: t' = t := Except.ok.inj ht
    subst this
    have hkq : (k == q) = false := by
      simp only [beq_eq_false_iff_ne, ne_eq]
      intro hc
      exact hk (hc ▸ List.mem_cons_self q rest)
    rw [List.lookup_cons, hkq]
    exact ih t' ht' k (fun hc => hk (List.mem_cons_of_mem _ hc))

lemma reaches_only_start (pt : Table) (start : St)
    (hs : succsOf pt start = []) :
    ∀ x, Reaches pt start x ↔ x = start := by
  intro x
  constructor
  · intro hx
    induction hx with
    | refl => rfl
    | @step a b _ hb ih =>
      subst ih
      rw [hs] at hb
      cases hb
  · rintro rfl
    exact Reaches.refl

end LoaderLemmas

/-- C10: the loader accepts a document whose start state is not among its
declared states (only a non-empty string is required); for two automata so
loaded, with the first one having such a start state, the derived union
start lies outside the product state set, and the validator returns a
structured failure that contains the start membership defect and an
unreachable finding listing every product state, without raising. -/
theorem readDFA_start_unchecked (doc1 doc2 : RawDoc) (dfa1 dfa2 : Dfa)
    (h1 : readDFA doc1 = .ok dfa1) (h2 : readDFA doc2 = .ok dfa2)
    (hstart : dfa1.start ∉ dfa1.states) (parts : UnionParts)
    (hpt : generateUnionTransitions dfa1 dfa2 (generateUnionStates dfa1 dfa2) =
      .ok parts) (accs : List St) :
    generateUnionStartState dfa1 dfa2 ∉ generateUnionStates dfa1 dfa2 ∧
    ∃ errs, validateUnionDFA dfa1 dfa2 (generateUnionStates dfa1 dfa2)
        parts.transitions (generateUnionStartState dfa1 dfa2) accs =
          some (.failure errs) ∧
      Finding.startNotInStates (generateUnionStartState dfa1 dfa2) ∈ errs ∧
      Finding.unreachableStates (generateUnionStates dfa1 dfa2) ∈ errs := by
  have hnotin : generateUnionStartState dfa1 dfa2 ∉ generateUnionStates dfa1 dfa2 := by
    intro hc
    exact hstart (List.mem_product.mp hc).1
  refine ⟨hnotin, ?_⟩
  have htr : dfa1.transitions ≠ [] := (readDFA_ok_ne doc1 dfa1 h1).2
  rcases stateErrorsLoop_some dfa1 (generateUnionStates dfa1 dfa2)
      parts.transitions htr (generateUnionStates dfa1 dfa2) with ⟨e2, he2⟩
  have hlookup : parts.transitions.lookup (generateUnionStartState dfa1 dfa2) = none := by
    rw [generateUnionTransitions] at hpt
    rcases ht : buildTable dfa1 dfa2 (symbolsOf dfa1) (generateUnionStates dfa1 dfa2)
      with e | t <;> rw [ht] at hpt <;> dsimp only at hpt
    · exact Except.noConfusion hpt
    have : (⟨generateUnionStates dfa1 dfa2, t⟩ : UnionParts) = parts := Except.ok.inj hpt
    subst this
    exact buildTable_keys dfa1 dfa2 (symbolsOf dfa1) _ t ht _ hnotin
  have hsuccs : succsOf parts.transitions (generateUnionStartState dfa1 dfa2) = [] := by
    rw [succsOf, hlookup]
  have hreach : ∀ x, x ∈ reachableFrom parts.transitions
      (generateUnionStartState dfa1 dfa2) ↔ x = generateUnionStartState dfa1 dfa2 := by
    intro x
    rw [reachableFrom_mem, reaches_only_start _ _ hsuccs]
  have hfilter : (generateUnionStates dfa1 dfa2).filter
      (fun p => decide (p ∉ reachableFrom parts.transitions
        (generateUnionStartState dfa1 dfa2))) = generateUnionStates dfa1 dfa2 := by
    rw [List.filter_eq_self]
    intro p hp
    simp only [decide_eq_true_eq]
    intro hc
    exact hnotin ((hreach p).mp hc ▸ hp)
  have hstates1 := (readDFA_ok_ne doc1 dfa1 h1).1
  have hstates2 := (readDFA_ok_ne doc2 dfa2 h2).1
  have hpsne : generateUnionStates dfa1 dfa2 ≠ [] := by
    rcases List.exists_mem_of_ne_nil dfa1.states hstates1 with ⟨a, ha⟩
    rcases List.exists_mem_of_ne_nil dfa2.states hstates2 with ⟨b, hb⟩
    intro hc
    have : (a, b) ∈ generateUnionStates dfa1 dfa2 := List.mem_product.mpr ⟨ha, hb⟩
    rw [hc] at this
    cases this
  have hs1 : startErrors (generateUnionStates dfa1 dfa2)
      (generateUnionStartState dfa1 dfa2) =
      [.startNotInStates (generateUnionStartState dfa1 dfa2)] := by
    rw [startErrors, if_neg hnotin]
  have hs4 : unreachableFinding (generateUnionStates dfa1 dfa2)
      (reachableFrom parts.transitions (generateUnionStartState dfa1 dfa2)) =
      [.unreachableStates (generateUnionStates dfa1 dfa2)] := by
    rw [unreachableFinding, hfilter]
    rcases hps : generateUnionStates dfa1 dfa2 with _ | ⟨p, ps'⟩
    · exact absurd hps hpsne
    · rfl
  refine ⟨startErrors (generateUnionStates dfa1 dfa2)
      (generateUnionStartState dfa1 dfa2) ++ e2 ++
      acceptErrors (generateUnionStates dfa1 dfa2) accs ++
      unreachableFinding (generateUnionStates dfa1 dfa2)
        (reachableFrom parts.transitions (generateUnionStartState dfa1 dfa2)),
    ?_, ?_, ?_⟩
  · rw [validateUnionDFA, he2]
    dsimp only
    congr 1
    rw [mkResult, if_neg]
    intro hc
    rcases List.append_eq_nil.mp hc with ⟨h123, _⟩
    rcases List.append_eq_nil.mp h123 with ⟨h12, _⟩
    rcases List.append_eq_nil.mp h12 with ⟨hc1, _⟩
    rw [hs1] at hc1
    exact List.noConfusion hc1
  · rw [hs1]
    exact List.mem_append.mpr (Or.inl (List.mem_append.mpr (Or.inl
      (List.mem_append.mpr (Or.inl (by simp))))))
  · rw [hs4]
    exact List.mem_append.mpr (Or.inr (by simp))

/-- Witness for C10: the loader accepts `doc10A` although its start state is
undeclared, and the validator then reports the start defect and every
product state as unreachable. -/
theorem readDFA_start_unchecked_witness :
    generateUnionStartState w10A w10B ∉ generateUnionStates w10A w10B ∧
    ∃ errs, validateUnionDFA w10A w10B (generateUnionStates w10A w10B)
        [(("s0", "t0"), [("a", ("s0", "t0"))])]
        (generateUnionStartState w10A w10B) [("s0", "t0")] =
          some (.failure errs) ∧
      Finding.startNotInStates (generateUnionStartState w10A w10B) ∈ errs ∧
      Finding.unreachableStates (generateUnionStates w10A w10B) ∈ errs := by
  have h := readDFA_start_unchecked doc10A doc10B w10A w10B (by rfl) (by rfl)
    (by decide)
    ⟨[("s0", "t0")], [(("s0", "t0"), [("a", ("s0", "t0"))])]⟩ (by rfl)
    [("s0", "t0")]
  exact h

section RoundTripLemmas

lemma comma_split :
    ∀ (a c b d : List Char), ',' ∉ a → ',' ∉ c →
      a ++ ',' :: b = c ++ ',' :: d → a = c ∧ b = d := by
  intro a
  induction a with
  | nil =>
    intro c b d _ hc h
    cases c with
    | nil => simpa using h
    | cons y ys =>
      simp only [List.nil_append, List.cons_append, List.cons.injEq] at h
      exact absurd (h.1 ▸ List.mem_cons_self y ys) hc
  | cons x xs ih =>
    intro c b d ha hc h
    cases c with
    | nil =>
      simp only [List.cons_append, List.nil_append, List.cons.injEq] at h
      exact absurd (h.1 ▸ List.mem_cons_self x xs) ha
    | cons y ys =>
      simp only [List.cons_append, List.cons.injEq] at h
      rcases h with ⟨rfl, h2⟩
      have hxs : ',' ∉ xs := fun hm => ha (List.mem_cons_of_mem _ hm)
      have hys : ',' ∉ ys := fun hm => hc (List.mem_cons_of_mem _ hm)
      rcases ih ys b d hxs hys h2 with ⟨rfl, rfl⟩
      exact ⟨rfl, rfl⟩

lemma tupToName_inj (p q : St) (hp : ',' ∉ p.1.data) (hq : ',' ∉ q.1.data)
    (h : tupToName p = tupToName q) : p = q := by
  rw [tupToName, tupToName, String.ext_iff] at h
  simp only [] at h
  have h' : p.1.data ++ ',' :: p.2.data = q.1.data ++ ',' :: q.2.data := by
    simpa using h
  rcases comma_split p.1.data q.1.data p.2.data q.2.data hp hq h' with ⟨h1, h2⟩
  exact Prod.ext (String.ext h1) (String.ext h2)

lemma comma_mem_tupToName (t : St) : ',' ∈ (tupToName t).data := by
  rw [tupToName]
  simp

lemma mem_dropWhile_of_mem {c : Char} (hc : ¬ c.isWhitespace) :
    ∀ l : List Char, c ∈ l → c ∈ l.dropWhile Char.isWhitespace := by
  intro l
  induction l with
  | nil => intro h; cases h
  | cons x xs ih =>
    intro h
    rw [List.dropWhile]
    by_cases hx : x.isWhitespace
    · rw [hx]
      rcases List.mem_cons.mp h with rfl | h
      · exact absurd hx hc
      · exact ih h
    · have : Char.isWhitespace x = false := by
        exact Bool.not_eq_true _ ▸ (by simpa using hx)
      rw [this]
      exact h

lemma stripChars_ne_nil {l : List Char} (h : ',' ∈ l) : stripChars l ≠ [] := by
  have hnw : ¬ (',' : Char).isWhitespace := by decide
  rw [stripChars]
  intro hc
  have h1 : ',' ∈ l.dropWhile Char.isWhitespace := mem_dropWhile_of_mem hnw l h
  have h2 : ',' ∈ (l.dropWhile Char.isWhitespace).reverse := List.mem_reverse.mpr h1
  have h3 : ',' ∈ (l.dropWhile Char.isWhitespace).reverse.dropWhile Char.isWhitespace :=
    mem_dropWhile_of_mem hnw _ h2
  rw [List.reverse_eq_nil_iff.mp hc] at h3
  cases h3

lemma tupToName_ne_empty (t : St) : tupToName t ≠ "" := by
  intro hc
  have hd : (tupToName t).data = [] := by rw [hc]
  have hm := comma_mem_tupToName t
  rw [hd] at hm
  cases hm

lemma pyStrip_tupToName_ne (t : St) : pyStrip (tupToName t) ≠ "" := by
  intro hc
  have hd : (pyStrip (tupToName t)).data = [] := by rw [hc]
  exact stripChars_ne_nil (comma_mem_tupToName t) (by simpa [pyStrip] using hd)

lemma dictInsert_fresh {β : Type} (m : List (String × β)) (k : String) (v : β)
    (h : k ∉ m.map Prod.fst) : dictInsert m k v = m ++ [(k, v)] := by
  induction m with
  | nil => rfl
  | cons kv rest ih =>
    rcases kv with ⟨k', v'⟩
    rw [dictInsert]
    have hne : k' ≠ k := by
      intro hc
      exact h (by simp [hc])
    rw [if_neg hne]
    rw [ih (fun hc => h (List.mem_cons_of_mem _ hc))]
    rfl

lemma dictInsert_lookup_self {β : Type} (m : List (String × β)) (k : String)
    (v : β) : (dictInsert m k v).lookup k = some v := by
  induction m with
  | nil => simp [dictInsert, List.lookup]
  | cons kv rest ih =>
    rcases kv with ⟨k', v'⟩
    rw [dictInsert]
    by_cases h : k' = k
    · rw [if_pos h]
      simp [List.lookup]
    · rw [if_neg h]
      have : (k == k') = false := by
        simp only [beq_eq_false_iff_ne, ne_eq]
        exact fun hc => h hc.symm
      rw [List.lookup_cons, this]
      exact ih

lemma dictInsert_lookup_ne {β : Type} (m : List (String × β)) (k : String)
    (v : β) (k' : String) (h : k' ≠ k) :
    (dictInsert m k v).lookup k' = m.lookup k' := by
  induction m with
  | nil =>
    rw [dictInsert]
    have : (k' == k) = false := by simpa using h
    rw [List.lookup_cons, this]
  | cons kv rest ih =>
    rcases kv with ⟨k0, v0⟩
    rw [dictInsert]
    by_cases hk : k0 = k
    · rw [if_pos hk]
      have h1 : (k' == k) = false := by simpa using h
      have h2 : (k' == k0) = false := by
        rw [hk]
        exact h1
      rw [List.lookup_cons, h1, List.lookup_cons, h2]
    · rw [if_neg hk]
      rw [List.lookup_cons, List.lookup_cons]
      rcases hbeq : (k' == k0) with _ | _
      · simp only []
        exact ih
      · rfl

lemma foldl_dictInsert_fresh :
    ∀ (row : Row) (acc : List (String × String)),
      (∀ k ∈ row.map Prod.fst, k ∉ acc.map Prod.fst) →
      (row.map Prod.fst).Nodup →
      row.foldl (fun e kv => dictInsert e kv.1 (tupToName kv.2)) acc =
        acc ++ row.map (fun kv => (kv.1, tupToName kv.2)) := by
  intro row
  induction row with
  | nil => intro acc _ _; simp
  | cons kv rest ih =>
    intro acc hfresh hnd
    rcases kv with ⟨k, v⟩
    rw [List.foldl_cons]
    have hk : k ∉ acc.map Prod.fst := hfresh k (by simp)
    rw [show dictInsert acc k (tupToName v) = acc ++ [(k, tupToName v)] from
      dictInsert_fresh acc k (tupToName v) hk]
    have hnd2 : (k :: rest.map Prod.fst).Nodup := by simpa using hnd
    have hnd' : (rest.map Prod.fst).Nodup := (List.nodup_cons.mp hnd2).2
    have hkrest : k ∉ rest.map Prod.fst := (List.nodup_cons.mp hnd2).1
    rw [ih (acc ++ [(k, tupToName v)]) ?_ hnd']
    · simp
    · intro k' hk'
      rw [List.map_append]
      intro hc
      rcases List.mem_append.mp hc with hc | hc
      · exact hfresh k' (List.mem_cons_of_mem _ hk') hc
      · have : k' = k := by simpa using hc
        subst this
        exact hkrest hk'

lemma renderEntry_eq (p : St) (row : Row)
    (hstate : ("state" : String) ∉ row.map Prod.fst)
    (hnd : (row.map Prod.fst).Nodup) :
    renderEntry p row =
      ("state", tupToName p) :: row.map (fun kv => (kv.1, tupToName kv.2)) := by
  rw [renderEntry, foldl_dictInsert_fresh row [("state", tupToName p)] ?_ hnd]
  · rfl
  · intro k hk
    simp only [List.map_cons, List.map_nil, List.mem_singleton]
    intro hc
    subst hc
    exact hstate hk

end RoundTripLemmas

lemma buildEntries_forall2 (pt : Table) :
    ∀ (ps' : List St) (es : List (List (String × String))),
      buildEntries ps' pt = some es →
      (∀ p ∈ ps', ∀ row, pt.lookup p = some row →
        row ≠ [] ∧ ("state" : String) ∉ row.map Prod.fst ∧
          (row.map Prod.fst).Nodup) →
      List.Forall₂ (entryShape pt) ps' es := by
  intro ps'
  induction ps' with
  | nil =>
    intro es h _
    have : (some [] : Option (List (List (String × String)))) = some es := h
    rw [← Option.some.inj this]
    exact List.Forall₂.nil
  | cons p rest ih =>
    intro es h hcond
    rw [buildEntries] at h
    rcases hr : pt.lookup p with _ | row <;> rw [hr] at h <;> dsimp only at h
    · exact Option.noConfusion h
    rcases hb : buildEntries rest pt with _ | es' <;> rw [hb] at h <;>
      dsimp only at h
    · exact Option.noConfusion h
    have := Option.some.inj h
    subst this
    rcases hcond p (by simp) row hr with ⟨hne, hstate, hnd⟩
    refine List.Forall₂.cons ?_
      (ih es' hb (fun q hq => hcond q (List.mem_cons_of_mem _ hq)))
    exact ⟨row, hr, hne, hstate, hnd, renderEntry_eq p row hstate hnd⟩

lemma readStates_run (pt : Table) :
    ∀ (ps' : List St) (entries : List (List (String × String))),
      List.Forall₂ (entryShape pt) ps' entries →
      ∀ (sts : List String) (trs : List (String × List (String × String))),
        (∀ p ∈ ps', tupToName p ∉ sts) →
        List.Pairwise (fun p q : St => tupToName p ≠ tupToName q) ps' →
        ∃ sts' trs', readStates entries sts trs = .ok (sts', trs') ∧
          (∀ n, n ∈ sts' ↔ (n ∈ sts ∨ ∃ p ∈ ps', n = tupToName p)) ∧
          sts'.length = sts.length + ps'.length ∧
          (∀ k, (∀ p ∈ ps', k ≠ tupToName p) → trs'.lookup k = trs.lookup k) ∧
          (∀ p ∈ ps', ∀ row, pt.lookup p = some row →
            trs'.lookup (tupToName p) =
              some (row.map (fun kv => (kv.1, tupToName kv.2)))) := by
  intro ps' entries hf
  induction hf with
  | nil =>
    intro sts trs _ _
    refine ⟨sts, trs, rfl, ?_, by simp, fun k _ => rfl, ?_⟩
    · intro n
      simp
    · intro p hp
      cases hp
  | @cons p entry ps'' entries'' hshape hrest ih =>
    intro sts trs hfresh hpw
    rcases hshape with ⟨row, hrow, hrowne, hrowstate, hrownd, hentry⟩
    subst hentry
    have hpwtail := (List.pairwise_cons.mp hpw).2
    have hpwhead := (List.pairwise_cons.mp hpw).1
    have hname_fresh : tupToName p ∉ sts := hfresh p (by simp)
    have hfresh' : ∀ q ∈ ps'', tupToName q ∉ sts ++ [tupToName p] := by
      intro q hq
      rw [List.mem_append]
      rintro (hc | hc)
      · exact hfresh q (List.mem_cons_of_mem _ hq) hc
      · exact hpwhead q hq ((by simpa using hc : tupToName q = tupToName p)).symm
    obtain ⟨sts', trs', hrun, hmem, hlen, hpres, hlook⟩ :=
      ih (sts ++ [tupToName p])
        (dictInsert trs (tupToName p)
          (row.map (fun kv => (kv.1, tupToName kv.2)))) hfresh' hpwtail
    refine ⟨sts', trs', ?_, ?_, ?_, ?_, ?_⟩
    · rw [readStates]
      have hl : (("state", tupToName p) ::
          row.map (fun kv => (kv.1, tupToName kv.2))).lookup ("state") =
          some (tupToName p) := rfl
      rw [hl]
      try dsimp only
      have hfil : (("state", tupToName p) ::
          row.map (fun kv => (kv.1, tupToName kv.2))).filter
            (fun kv => decide (kv.1 ≠ "state")) =
          row.map (fun kv => (kv.1, tupToName kv.2)) := by
        rw [List.filter_cons]
        have : (decide ((("state", tupToName p) : String × String).1 ≠ "state")) =
            false := rfl
        rw [this]
        rw [if_neg (by simp : ¬(false = true))]
        rw [List.filter_eq_self]
        intro kv hkv
        rcases List.mem_map.mp hkv with ⟨kv0, hkv0, rfl⟩
        simp only [decide_eq_true_eq, ne_eq]
        intro hc
        exact hrowstate (hc ▸ List.mem_map.mpr ⟨kv0, hkv0, rfl⟩)
      obtain ⟨kv0, rrest, hrn⟩ : ∃ kv0 rrest,
          row.map (fun kv => (kv.1, tupToName kv.2)) = kv0 :: rrest := by
        rcases hm : row.map (fun kv => (kv.1, tupToName kv.2)) with _ | ⟨a, b⟩
        · exact absurd (List.map_eq_nil_iff.mp hm) hrowne
        · exact ⟨a, b, hm⟩
      rw [hfil, hrn]
      try dsimp only
      rw [show addState sts (tupToName p) = sts ++ [tupToName p] from
        by rw [addState, if_neg hname_fresh]]
      rw [← hrn]
      exact hrun
    · intro n
      rw [hmem n]
      constructor
      · rintro (hn | hn)
        · rcases List.mem_append.mp hn with hn | hn
          · exact Or.inl hn
          · exact Or.inr ⟨p, by simp, by simpa using hn⟩
        · rcases hn with ⟨q, hq, rfl⟩
          exact Or.inr ⟨q, List.mem_cons_of_mem _ hq, rfl⟩
      · rintro (hn | ⟨q, hq, rfl⟩)
        · exact Or.inl (List.mem_append.mpr (Or.inl hn))
        · rcases List.mem_cons.mp hq with rfl | hq
          · exact Or.inl (List.mem_append.mpr (Or.inr (by simp)))
          · exact Or.inr ⟨q, hq, rfl⟩
    · have happ : (sts ++ [tupToName p]).length = sts.length + 1 := by
        rw [List.length_append]
        rfl
      rw [hlen, happ]
      simp only [List.length_cons]
      omega
    · intro k hk
      rw [hpres k (fun q hq => hk q (List.mem_cons_of_mem _ hq))]
      exact dictInsert_lookup_ne trs (tupToName p) _ k (hk p (by simp))
    · intro q hq row' hrow'
      rcases List.mem_cons.mp hq with rfl | hq
      · have hrr : row' = row := by
          rw [hrow] at hrow'
          exact (Option.some.inj hrow').symm
        subst hrr
        rw [hpres (tupToName q) (fun q' hq' => hpwhead q' hq')]
        exact dictInsert_lookup_self trs (tupToName q) _
      · exact hlook q hq row' hrow'

lemma readAccepts_run :
    ∀ (as' : List St) (accs0 : List String),
      ∃ accs', readAccepts (as'.map (fun a => [("state", tupToName a)])) accs0 =
          .ok accs' ∧
        ∀ n, n ∈ accs' ↔ (n ∈ accs0 ∨ ∃ a ∈ as', n = tupToName a) := by
  intro as'
  induction as' with
  | nil =>
    intro accs0
    refine ⟨accs0, rfl, ?_⟩
    intro n
    simp
  | cons a rest ih =>
    intro accs0
    rcases ih (addState accs0 (tupToName a)) with ⟨accs', hrun, hmem⟩
    refine ⟨accs', ?_, ?_⟩
    · rw [List.map_cons, readAccepts]
      have hl : ([("state", tupToName a)] :
          List (String × String)).lookup ("state") = some (tupToName a) := rfl
      rw [hl]
      exact hrun
    · intro n
      rw [hmem n]
      rw [addState_mem]
      constructor
      · rintro ((hn | hn) | ⟨q, hq, rfl⟩)
        · exact Or.inl hn
        · exact Or.inr ⟨a, by simp, hn⟩
        · exact Or.inr ⟨q, List.mem_cons_of_mem _ hq, rfl⟩
      · rintro (hn | ⟨q, hq, rfl⟩)
        · exact Or.inl (Or.inl hn)
        · rcases List.mem_cons.mp hq with rfl | hq
          · exact Or.inl (Or.inr rfl)
          · exact Or.inr ⟨q, hq, rfl⟩

/-- C7 (amended): for a validated union automaton whose product pairs have
comma free first components, whose transition rows have duplicate free symbol
keys none of which is the literal string state, and whose accept set is
non-empty, serializing with the comma joined naming and re-loading through
the loader yields an automaton whose state set, start state, accept set and
transition function are exactly the images of the original product under
that naming. -/
theorem outputUnionDFA_roundTrip (dfa1 dfa2 : Dfa) (ps : List St) (pt : Table)
    (start : St) (accs : List St)
    (hv : validateUnionDFA dfa1 dfa2 ps pt start accs = some .success)
    (hps : ps.Nodup)
    (hcomma : ∀ p ∈ ps, ',' ∉ p.1.data)
    (hkeys : ∀ p ∈ ps, ∀ row, pt.lookup p = some row →
      ("state" : String) ∉ row.map Prod.fst ∧ (row.map Prod.fst).Nodup)
    (haccs : accs ≠ [])
    (hsym : ∃ s0 syms, refSymbols dfa1 = some (s0 :: syms)) :
    ∃ doc R, outputUnionDFA ps pt start accs = some doc ∧ readDFA doc = .ok R ∧
      (∀ n, n ∈ R.states ↔ ∃ p ∈ ps, n = tupToName p) ∧
      R.states.length = ps.length ∧
      R.start = tupToName start ∧
      (∀ n, n ∈ R.accepts ↔ ∃ a ∈ accs, n = tupToName a) ∧
      (∀ p ∈ ps, ∀ row, pt.lookup p = some row →
        R.transitions.lookup (tupToName p) =
          some (row.map (fun kv => (kv.1, tupToName kv.2)))) := by
  obtain ⟨hstartmem, hchk, _⟩ := validate_success_facts dfa1 dfa2 ps pt start accs hv
  obtain ⟨s0, syms, hs⟩ := hsym
  have hrows : ∀ p ∈ ps, ∃ row, pt.lookup p = some row := fun p hp =>
    checkState_nil_row dfa1 ps pt p (hchk p hp)
  have hrowne : ∀ p ∈ ps, ∀ row, pt.lookup p = some row → row ≠ [] := by
    intro p hp row hrow
    obtain ⟨row', hrow', hall⟩ :=
      (checkState_eq_nil dfa1 ps pt p (s0 :: syms) hs).mp (hchk p hp)
    have hre : row' = row := by
      rw [hrow] at hrow'
      exact (Option.some.inj hrow').symm
    subst hre
    obtain ⟨tgt, htgt, _⟩ := hall s0 (by simp)
    intro hc
    rw [hc, List.lookup_nil] at htgt
    exact Option.noConfusion htgt
  obtain ⟨es, hes⟩ := buildEntries_some_of_rows pt (sortPairs ps)
    (fun p hp => hrows p ((sortPairs_mem ps p).mp hp))
  have hf : List.Forall₂ (entryShape pt) (sortPairs ps) es := by
    refine buildEntries_forall2 pt (sortPairs ps) es hes ?_
    intro p hp row hrow
    have hp' := (sortPairs_mem ps p).mp hp
    exact ⟨hrowne p hp' row hrow, (hkeys p hp' row hrow).1, (hkeys p hp' row hrow).2⟩
  have hpsne : ps ≠ [] := by
    intro hc
    rw [hc] at hstartmem
    cases hstartmem
  have hsortne : sortPairs ps ≠ [] := by
    intro hc
    have := (sortPairs_perm ps).length_eq
    rw [hc] at this
    exact hpsne (List.eq_nil_of_length_eq_zero this.symm)
  have hesne : es ≠ [] := by
    intro hc
    have := hf.length_eq
    rw [hc] at this
    exact hsortne (List.eq_nil_of_length_eq_zero this)
  have haesne : (sortPairs accs).map (fun acc => [(("state" : String), tupToName acc)]) ≠ [] := by
    rw [ne_eq, List.map_eq_nil_iff]
    intro hc
    have := (sortPairs_perm accs).length_eq
    rw [hc] at this
    exact haccs (List.eq_nil_of_length_eq_zero this.symm)
  have hpw : List.Pairwise (fun p q : St => tupToName p ≠ tupToName q) (sortPairs ps) := by
    have hnd : (sortPairs ps).Nodup := ((sortPairs_perm ps).nodup_iff).mpr hps
    refine List.Pairwise.imp_of_mem ?_ hnd
    intro a b ha hb hne hc
    exact hne (tupToName_inj a b (hcomma a ((sortPairs_mem ps a).mp ha))
      (hcomma b ((sortPairs_mem ps b).mp hb)) hc)
  obtain ⟨sts', trs', hrun, hmem, hlen, hpres, hlook⟩ :=
    readStates_run pt (sortPairs ps) es hf [] []
      (fun p _ => List.not_mem_nil _) hpw
  obtain ⟨accs', harun, hamem⟩ := readAccepts_run (sortPairs accs) []
  refine ⟨⟨es, tupToName start,
      (sortPairs accs).map (fun acc => [(("state" : String), tupToName acc)])⟩,
    ⟨sts', trs', tupToName start, accs'⟩, ?_, ?_, ?_, ?_, rfl, ?_, ?_⟩
  · rw [outputUnionDFA, hes]
  · rw [readDFA]
    dsimp only
    rw [if_neg hesne, if_neg (tupToName_ne_empty start), if_neg haesne,
      if_neg (pyStrip_tupToName_ne start), hrun]
    dsimp only
    rw [harun]
  · intro n
    rw [show (⟨sts', trs', tupToName start, accs'⟩ : Dfa).states = sts' from rfl]
    rw [hmem n]
    constructor
    · rintro (hn | ⟨p, hp, rfl⟩)
      · cases hn
      · exact ⟨p, (sortPairs_mem ps p).mp hp, rfl⟩
    · rintro ⟨p, hp, rfl⟩
      exact Or.inr ⟨p, (sortPairs_mem ps p).mpr hp, rfl⟩
  · rw [show (⟨sts', trs', tupToName start, accs'⟩ : Dfa).states = sts' from rfl]
    rw [hlen]
    have := (sortPairs_perm ps).length_eq
    simp only [List.length_nil]
    omega
  · intro n
    rw [show (⟨sts', trs', tupToName start, accs'⟩ : Dfa).accepts = accs' from rfl]
    rw [hamem n]
    constructor
    · rintro (hn | ⟨a, ha, rfl⟩)
      · cases hn
      · exact ⟨a, (sortPairs_mem accs a).mp ha, rfl⟩
    · rintro ⟨a, ha, rfl⟩
      exact Or.inr ⟨a, (sortPairs_mem accs a).mpr ha, rfl⟩
  · intro p hp row hrow
    rw [show (⟨sts', trs', tupToName start, accs'⟩ : Dfa).transitions = trs' from rfl]
    exact hlook p ((sortPairs_mem ps p).mpr hp) row hrow

/-- Witness for C7 at the worked example of the spec: the round trip
succeeds and reproduces both product states. -/
theorem outputUnionDFA_roundTrip_witness :
    ∃ doc R, outputUnionDFA [("q0", "p0"), ("q1", "p0")] exPT ("q0", "p0")
        [("q1", "p0")] = some doc ∧ readDFA doc = .ok R ∧
      R.states.length = 2 ∧ R.start = tupToName ("q0", "p0") := by
  obtain ⟨doc, R, h1, h2, _, hlen, hstart, _, _⟩ :=
    outputUnionDFA_roundTrip exA exB [("q0", "p0"), ("q1", "p0")] exPT
      ("q0", "p0") [("q1", "p0")] (by rfl) (by decide) (by decide)
      (by
        intro p hp row hrow
        fin_cases hp
        · rw [show List.lookup (("q0", "p0") : St) exPT =
              some [("a", ("q1", "p0"))] from rfl] at hrow
          have hr := Option.some.inj hrow
          rw [← hr]
          exact ⟨by decide, by decide⟩
        · rw [show List.lookup (("q1", "p0") : St) exPT =
              some [("a", ("q1", "p0"))] from rfl] at hrow
          have hr := Option.some.inj hrow
          rw [← hr]
          exact ⟨by decide, by decide⟩)
      (by decide) ⟨"a", [], rfl⟩
  exact ⟨doc, R, h1, h2, by rw [hlen]; rfl, hstart⟩

example : generateUnionTransitions x7A x7B x7Ps = .ok ⟨x7Ps, x7Pt⟩ := by rfl

/-- Counterexample for C7 as stated: a validated union automaton whose state
identifiers contain commas; the pairs (a, b,c) and (a,b, c) both serialize to
the identifier a,b,c, so the re-loaded automaton has three states while the
validated product has four distinct states, and no isomorphism between them
exists. -/
theorem outputUnionDFA_roundTrip_cex :
    validateUnionDFA x7A x7B x7Ps x7Pt x7Start x7Accs = some .success ∧
    tupToName ("a", "b,c") = tupToName ("a,b", "c") ∧
    x7Ps.Nodup ∧ x7Ps.length = 4 ∧
    outputUnionDFA x7Ps x7Pt x7Start x7Accs = some x7Doc ∧
    readDFA x7Doc = .ok x7R ∧ x7R.states.Nodup ∧ x7R.states.length = 3 := by
  refine ⟨by rfl, by rfl, by decide, by rfl, by rfl, by rfl, by decide, by rfl⟩
